import Mathlib

/-!
Verification of the twisted Kazhdan-Lusztig ("h") engine of the Atlas of Lie
groups software, together with the descent-status predicates, the packed
degree/valuation byte of the untwisted polynomial pool, and the klwrite
matrix-file layout.  The C++ sources embedded here are
`sources/gkmod/hkl.cpp` / `hkl.h` (classes `hKLSupport` and `hKLContext`),
`sources/gkmod/descents.h` (class `DescentStatus`),
`sources/gkmod/kl.h` (struct `KLPool::packed_byte`) and the `klwrite_f`
command of `sources/test/test.cpp`.

Conventions.  `size_t` / `BlockElt` values become `Nat`; the signed
coefficient type `hKLCoeff = int` becomes `Int`.  Where the C++ relies on
unsigned wrap-around the embedding reproduces the observable comparison
(e.g. `zlen == xlen-1` over `size_t` is rendered as `zlen + 1 = xlen`,
which agree for every pair of operands).
-/

/-!
## Polynomials

Modelled from the spec: `polynomials.h` (template `polynomials::Polynomial`)
is not under `src/`; the spec describes KL polynomials as polynomials in one
indeterminate `q` with (here, twisted case) signed integer coefficients,
compared and hashed by value.  We represent a polynomial by its coefficient
list (index = degree), kept free of trailing zeros so that list equality is
value equality; the zero polynomial is `[]`.  `polynomials::Polynomial(d, c)`
builds the monomial `c * q^d`, and for a non-zero polynomial `degree()` is
one less than the coefficient-vector size (the zero polynomial has an empty
vector, so its `degree()` is the huge value `size_t(0)-1` and never equals a
small bound; testing `degree() == d` is therefore rendered as
`length = d + 1`).
-/

/-- Coefficient lists for twisted KL polynomials (`hKLPol`). -/
abbrev HPol := List Int

/-- Coefficient of `q^n`. -/
def coeffAt (p : HPol) (n : Nat) : Int := p.getD n 0

/-- Drop trailing zero coefficients, producing the canonical representative. -/
def polyTrim : HPol → HPol
  | [] => []
  | a :: t =>
    match polyTrim t with
    | [] => if a = 0 then [] else [a]
    | r => a :: r

/-- Pointwise sum of coefficient lists. -/
def polyAddAux : HPol → HPol → HPol
  | [], q => q
  | p, [] => p
  | a :: p, b :: q => (a + b) :: polyAddAux p q

/-- Pointwise difference of coefficient lists. -/
def polySubAux : HPol → HPol → HPol
  | [], q => q.map (fun c => -c)
  | p, [] => p
  | a :: p, b :: q => (a - b) :: polySubAux p q

/-- Cauchy product of coefficient lists. -/
def polyMulAux : HPol → HPol → HPol
  | [], _ => []
  | a :: p, q => polyAddAux (q.map (fun c => a * c)) (0 :: polyMulAux p q)

/-- Sum of two polynomials (`Polynomial::operator+`), canonical form. -/
def polyAdd (p q : HPol) : HPol := polyTrim (polyAddAux p q)

/-- Difference of two polynomials (`Polynomial::operator-`), canonical form. -/
def polySub (p q : HPol) : HPol := polyTrim (polySubAux p q)

/-- Product of two polynomials (`Polynomial::operator*`), canonical form. -/
def polyMul (p q : HPol) : HPol := polyTrim (polyMulAux p q)

/-- The monomial `c * q^d`, as built by the constructor `Polynomial(d, c)`. -/
def polyMonomial (d : Nat) (c : Int) : HPol := List.replicate d 0 ++ [c]

/-- The polynomial `q`, built in `hKLContext::fill` as `hKLPol q(1,1)`. -/
def polyQ : HPol := [0, 1]

/-- The polynomial `1` stored at index `d_one` of the store. -/
def polyOne : HPol := [1]


/-!
## The h-block and the `hKLSupport` layer (`hkl.cpp`, namespace `klsupport`)

`hBlock` itself (class `hBlock` of `blocks.h` / `blocks.cpp`) is not under
`src/`; only the accessors used by `hKLSupport` matter here: `hsize`,
`hrank`, `length` (of the underlying delta-fixed block element) and the
cross action `hcross`.  We therefore model a block as these four data.
-/

/-- The read-only view of an h-block consumed by the twisted KL engine:
`getSize`, `getRank`, `getLength` and `cross` of `hKLSupport`. -/
structure HBlock where
  size : Nat
  rank : Nat
  length : Nat → Nat
  cross : Nat → Nat → Nat

/-- Modelled from the spec: the well-formedness of an h-block.  `blocks.cpp`
is not under `src/`, so the properties of the blocks the engine receives are
taken from the spec: cross actions stay inside the block (§4.1); the block is
topologically sorted by length (§3); and, in the complex-group case treated
by the h-engine (§4.6 and the base case of the row fill, which handles
exactly the element `0`), element `0` is the unique element of length `0`. -/
def HBlockValid (b : HBlock) : Prop :=
  0 < b.size ∧
  (∀ s ∈ List.range b.rank, ∀ x ∈ List.range b.size, b.cross s x < b.size) ∧
  (∀ x ∈ List.range b.size, ∀ y ∈ List.range b.size, x ≤ y → b.length x ≤ b.length y) ∧
  b.length 0 = 0 ∧
  (∀ x ∈ List.range b.size, 0 < x → 0 < b.length x)

instance (b : HBlock) : Decidable (HBlockValid b) := by
  unfold HBlockValid; infer_instance

/-- Bit `x` of `d_downset[s]`: set iff `cross(s,x) < x` (`hKLSupport::fill`). -/
def inDownset (b : HBlock) (s x : Nat) : Bool := decide (b.cross s x < x)

/-- Test of bit `s` of the descent set `d_descent[y]`, which
`hKLSupport::fill` sets exactly when `cross(s,y) < y`. -/
def descentTest (b : HBlock) (y : Nat) : Nat → Bool := fun s => inDownset b s y

/-- The `while` loop of `hKLSupport::fill` that advances `currlen` to
`xlen`, writing `x` into every newly reached slot of `d_ll`.  The first
argument counts the remaining iterations (`xlen - currlen`). -/
def llBump : Nat → List Nat → Nat → Nat → List Nat × Nat
  | 0, arr, c, _ => (arr, c)
  | f + 1, arr, c, x => llBump f (arr.set (c + 1) x) (c + 1) x

/-- One iteration of the `for (x=1; x<size; x++)` loop of
`hKLSupport::fill`. -/
def llStep (b : HBlock) (p : List Nat × Nat) (x : Nat) : List Nat × Nat :=
  llBump (b.length x - p.2) p.1 p.2 x

/-- The `d_ll` vector as computed by `hKLSupport::fill`: resized to
`maxlen+2` with `d_ll[0] = 0`, filled by the loop over `x = 1 .. size-1`,
and completed by `d_ll[currlen+1] = size`. -/
def llList (b : HBlock) : List Nat :=
  let start : List Nat × Nat :=
    (List.replicate (b.length (b.size - 1) + 2) 0, 0)
  let fin := (List.range' 1 (b.size - 1)).foldl (llStep b) start
  fin.1.set (fin.2 + 1) b.size

/-- `hKLSupport::ll`: the first block element of length at least `l`. -/
def ll (b : HBlock) (l : Nat) : Nat := (llList b).getD l 0

/-- `hKLSupport::primitivize(BitMap&, const RankFlags&)`: intersect the
bitmap with `d_downset[s]` for every `s` in the descent set.  Bitmaps are
represented by their ascending lists of members. -/
def primitivizeMap (b : HBlock) (pmap : List Nat) (ds : Nat → Bool) : List Nat :=
  (List.range b.rank).foldl
    (fun m s => if ds s then m.filter (fun x => inDownset b s x) else m) pmap

/-- One test of the loop guard of `hKLSupport::primitivize(BlockElt,...)`:
the first `s < rank` that lies in `ds` and is an ascent of `x`
(`d_ascent[x]` holds `s` iff not `cross(s,x) < x`). -/
def firstAscentIn (b : HBlock) (ds : Nat → Bool) (x : Nat) : Option Nat :=
  (List.range b.rank).find? (fun s => ds s && !(inDownset b s x))

/-- The `while` loop of `hKLSupport::primitivize(BlockElt, const RankFlags&)`
with explicit fuel.  On the blocks the engine runs on, every step strictly
increases `x`, so `b.size` steps suffice; the C++ loop runs unboundedly. -/
def primitivizeAux (b : HBlock) (ds : Nat → Bool) : Nat → Nat → Nat
  | 0, x => x
  | fuel + 1, x =>
    match firstAscentIn b ds x with
    | none => x
    | some s => primitivizeAux b ds fuel (b.cross s x)

/-- `hKLSupport::primitivize(BlockElt x, const RankFlags& ds)`. -/
def primitivize (b : HBlock) (x : Nat) (ds : Nat → Bool) : Nat :=
  primitivizeAux b ds b.size x

/-- The bitmap prepared by `hKLContext::makePrimitiveRow`:
`pmap.fill(0, ll(length(y)))` followed by `pmap.insert(y)`, listed in
ascending order. -/
def rowBitmap (b : HBlock) (y : Nat) : List Nat :=
  let n := ll b (b.length y)
  if y < n then List.range n else List.range n ++ [y]

/-- `hKLContext::makePrimitiveRow`: the primitive elements of row `y`, in
ascending order. -/
def makePrimitiveRow (b : HBlock) (y : Nat) : List Nat :=
  primitivizeMap b (rowBitmap b y) (descentTest b y)

/-- `hKLContext::findRoot`: the first descent generator `s` of `y` with
`cross(s,y) < ll(length(y)-1)` (a type II descent), or `rank` if none. -/
def findRoot (b : HBlock) (y : Nat) : Nat :=
  let ymax := ll b (b.length y - 1)
  match (List.range b.rank).find?
      (fun s => descentTest b y s && decide (b.cross s y < ymax)) with
  | some s => s
  | none => b.rank

/-!
## The engine state (`hKLContext` data members)
-/

/-- The mutable data members of `hKLContext`: `d_prim`, `d_kl`, `d_store`,
`d_pmap`, `d_mu`, `d_mu_`.  The pointers `d_zero` and `d_one` are set once to
`0` and `1` by the constructor and never change, so they appear as the
literals `0` and `1` below. -/
structure HState where
  prim : List (List Nat)
  kl : List (List Nat)
  store : List HPol
  pmap : List (HPol × Nat)
  mu : List (List Nat × List Int)
  mu_ : List (List Nat × List Int)

/-- Lookup in the `std::map<hKLPol,KLIndex> d_pmap`. -/
def lookupPoly (pmap : List (HPol × Nat)) (p : HPol) : Option Nat :=
  (pmap.find? (fun e => e.1 == p)).map (fun e => e.2)

/-- `hKLContext::insertPoly`: return the index of `p` if present, otherwise
append `p` to the store and record its fresh index. -/
def insertPoly (st : HState) (p : HPol) : Nat × HState :=
  match lookupPoly st.pmap p with
  | some i => (i, st)
  | none =>
    (st.store.length,
      { st with
        store := st.store ++ [p],
        pmap := st.pmap ++ [(p, st.store.length)] })

/-- The loop of `hKLContext::writeRow` restricted to the store: insert the
polynomials of a row one after the other, collecting their indices. -/
def insertAll (st : HState) (klv : List HPol) : List Nat × HState :=
  klv.foldl
    (fun acc p =>
      let r := insertPoly acc.2 p
      (acc.1 ++ [r.1], r.2))
    ([], st)

/-- `hKLContext::writeRow`: store the polynomials of row `y` and record
`d_prim[y]` and `d_kl[y]`. -/
def writeRow (st : HState) (klv : List HPol) (prow : List Nat) (y : Nat) : HState :=
  let r := insertAll st klv
  { r.2 with prim := r.2.prim.set y prow, kl := r.2.kl.set y r.1 }

/-- `hKLContext::getPoly`: primitivize `x` with respect to the descent set
of `y`, then binary-search the primitive row of `y`; misses yield the zero
polynomial `d_store[d_zero]`. -/
def getPoly (b : HBlock) (st : HState) (x y : Nat) : HPol :=
  let prow := st.prim.getD y []
  let klrow := st.kl.getD y []
  let x1 := primitivize b x (descentTest b y)
  if y < x1 then st.store.getD 0 []
  else
    match prow.findIdx? (fun t => decide (x1 ≤ t)) with
    | none => st.store.getD 0 []
    | some i =>
      if prow.getD i 0 = x1 then st.store.getD (klrow.getD i 0) []
      else st.store.getD 0 []

/-- One entry of the direct recursion in `hKLContext::fill`: for a primitive
element `z` of the row `sws` with chosen root `s` and `sxj = cross(s,sws)`,
the polynomial `q*Pszsj + Pszsj + q*q*Pzsj - q*Pzsj` (type I, length drop 1
under `s`) or `Pszsj + q*q*Pzsj` (type II). -/
def recEntry (b : HBlock) (st : HState) (s sxj z : Nat) : HPol :=
  let sxz := b.cross s z
  let Pszsj := getPoly b st sxz sxj
  let Pzsj := getPoly b st z sxj
  if b.length z - b.length sxz = 1 then
    polySub
      (polyAdd (polyAdd (polyMul polyQ Pszsj) Pszsj)
        (polyMul (polyMul polyQ polyQ) Pzsj))
      (polyMul polyQ Pzsj)
  else
    polyAdd Pszsj (polyMul (polyMul polyQ polyQ) Pzsj)

/-- The vector `klvrow` of `hKLContext::fill` after the direct-recursion
loop `for (k=0; k<psize-1; k++)`, before the self term is written: entry `k`
is the recursion polynomial for `prow[k]`, and the last entry is still the
default-constructed zero polynomial. -/
def klvRecursion (b : HBlock) (st : HState) (s sxj : Nat) (prow : List Nat) :
    List HPol :=
  (List.range prow.length).map
    (fun k => if k < prow.length - 1 then recEntry b st s sxj (prow.getD k 0) else [])

/-- The inner loop over primitive elements shared by the three correction
passes of `hKLContext::muCorrection`: for `k` running while `k < psize`,
stop («break») as soon as `length(cross(s,prow[k])) > bound`, and otherwise
add `p * getPoly(cross(s,prow[k]), tgt)` into `klv[k]`; when `skipZero` is
set a zero `getPoly` value is skipped («continue»).  The first `Nat`
argument is the remaining iteration count `psize - k`. -/
def corrInner (b : HBlock) (st : HState) (s bound : Nat) (p : HPol) (tgt : Nat)
    (skipZero : Bool) (prow : List Nat) : Nat → Nat → List HPol → List HPol
  | 0, _, klv => klv
  | fuel + 1, k, klv =>
    let sx := prow.getD k 0
    let x := b.cross s sx
    if bound < b.length x then klv
    else
      let pxy := getPoly b st x tgt
      let klv' :=
        if skipZero && (pxy == ([] : HPol)) then klv
        else klv.set k (polyAdd (klv.getD k []) (polyMul p pxy))
      corrInner b st s bound p tgt skipZero prow fuel (k + 1) klv'

/-- One iteration of the first correction pass of `hKLContext::muCorrection`
(the loop over the `mu` row of `w`): according to the relative position of
`sxy = cross(s,y)`, add the first or second correction term into the
entries of `klvrow`. -/
def mcMuStep (b : HBlock) (st : HState) (s wlen : Nat)
    (murow : List Nat × List Int) (prow : List Nat)
    (klv : List HPol) (i : Nat) : List HPol :=
  let y := murow.1.getD i 0
  let mu := murow.2.getD i 0
  let sxy := b.cross s y
  let ylen := b.length y
  let sxylen := b.length sxy
  let diff := wlen - ylen
  if sxylen < ylen then
    let deg := (diff + 1) / 2
    let p := (polyMonomial (deg + 1) (-mu)).set deg (-mu)
    corrInner b st s ylen p y false prow (prow.length - 1) 0 klv
  else if sxylen = ylen + 1 then
    let deg := (diff + 2) / 2
    let p := polyMonomial deg (-mu)
    corrInner b st s ylen p sxy false prow (prow.length - 1) 0 klv
  else klv

/-- One iteration of the second correction pass of `muCorrection` (the loop
over the `mu_` row of `w`). -/
def mcMu_Step (b : HBlock) (st : HState) (s wlen : Nat)
    (m_row : List Nat × List Int) (prow : List Nat)
    (klv : List HPol) (i : Nat) : List HPol :=
  let y := m_row.1.getD i 0
  let mu := m_row.2.getD i 0
  let ylen := b.length y
  let sxylen := b.length (b.cross s y)
  let diff := wlen - ylen
  if sxylen > ylen then klv
  else
    let deg := (diff + 2) / 2
    let p := polyMonomial deg (-mu)
    corrInner b st s ylen p y true prow (prow.length - 1) 0 klv

/-- The inner loop of the final (convolution) pass of `muCorrection`: for a
fixed `z` with `mu(z,w)` non-zero, run over the `mu` row of `z`. -/
def mcConvInnerStep (b : HBlock) (st : HState) (s wlen : Nat) (muzw : Int)
    (zrow : List Nat × List Int) (prow : List Nat)
    (klv : List HPol) (j : Nat) : List HPol :=
  let y := zrow.1.getD j 0
  let ylen := b.length y
  let sxy := b.cross s y
  if b.length sxy > ylen then klv
  else
    let muyz := zrow.2.getD j 0
    let muprod := muyz * muzw
    let diff := wlen - ylen
    let deg := (diff + 2) / 2
    let p := polyMonomial deg muprod
    corrInner b st s ylen p y true prow (prow.length - 1) 0 klv

/-- The outer loop of the final (convolution) pass of `muCorrection`. -/
def mcConvStep (b : HBlock) (st : HState) (s wlen : Nat)
    (murow : List Nat × List Int) (prow : List Nat)
    (klv : List HPol) (i : Nat) : List HPol :=
  let z := murow.1.getD i 0
  let zlen := b.length z
  let sxz := b.cross s z
  if b.length sxz > zlen then klv
  else
    let muzw := murow.2.getD i 0
    let zrow := st.mu.getD z ([], [])
    (List.range zrow.1.length).foldl (mcConvInnerStep b st s wlen muzw zrow prow) klv

/-- `hKLContext::muCorrection(klvrow, prow, sws, s)`: the three correction
passes driven by the `mu` and `mu_` rows of `w = cross(s,sws)`. -/
def muCorrection (b : HBlock) (st : HState) (klvrow : List HPol)
    (prow : List Nat) (sws s : Nat) : List HPol :=
  let w := b.cross s sws
  let wlen := b.length w
  let murow := st.mu.getD w ([], [])
  let k1 := (List.range murow.1.length).foldl
    (mcMuStep b st s wlen murow prow) klvrow
  let m_row := st.mu_.getD w ([], [])
  let k2 := (List.range m_row.1.length).foldl
    (mcMu_Step b st s wlen m_row prow) k1
  (List.range murow.1.length).foldl (mcConvStep b st s wlen murow prow) k2

/-- The state threaded through the loops of `hKLContext::fillMuRow`: the
`mu` row, the `mu_` row, and the `mu_bits` seen-bitmap. -/
abbrev MuAcc := (List Nat × List Int) × (List Nat × List Int) × (Nat → Bool)

/-- The inner loop body of `fillMuRow` for an odd length difference: for
generator `s`, examine `z = cross(s,x)`; if unseen, of length one less than
`x`, and with `getPoly(z,y)` of degree `d`, record `z` in the `mu_` row and
mark it seen.  Only the `(mu_, bits)` part of the state is touched. -/
def fmrInnerStep (b : HBlock) (st : HState) (y x d : Nat)
    (acc2 : (List Nat × List Int) × (Nat → Bool)) (s : Nat) :
    (List Nat × List Int) × (Nat → Bool) :=
  let z := b.cross s x
  if acc2.2 z then acc2
  else
    let zlen := b.length z
    if zlen + 1 = b.length x then
      let p := getPoly b st z y
      if p.length = d + 1 then
        ((acc2.1.1 ++ [z], acc2.1.2 ++ [coeffAt p d]),
          fun t => if t = z then true else acc2.2 t)
      else acc2
    else acc2

/-- The body of the loop of `fillMuRow` over the primitive elements
(`for (i=0; i<psize; i++)`). -/
def fmrMainStep (b : HBlock) (st : HState) (y : Nat) (prowY klY : List Nat)
    (ylen : Nat) (acc : MuAcc) (i : Nat) : MuAcc :=
  let x := prowY.getD i 0
  let xlen := b.length x
  let d := (ylen - xlen - 1) / 2
  if (ylen - xlen) % 2 = 1 then
    let inner := (List.range b.rank).foldl (fmrInnerStep b st y x d) (acc.2.1, acc.2.2)
    let p := st.store.getD (klY.getD i 0) []
    if p.length = d + 1 then
      ((acc.1.1 ++ [x], acc.1.2 ++ [coeffAt p d]), inner.1, inner.2)
    else (acc.1, inner.1, inner.2)
  else
    if acc.2.2 x then acc
    else
      let p := st.store.getD (klY.getD i 0) []
      if p.length = d + 1 then
        (acc.1, (acc.2.1.1 ++ [x], acc.2.1.2 ++ [coeffAt p d]),
          fun t => if t = x then true else acc.2.2 t)
      else acc

/-- The body of the final loop of `fillMuRow` over the generators, adding
the elements `cross(s,y)` of length one or two less than `y`. -/
def fmrExtrasStep (b : HBlock) (st : HState) (y ylen : Nat)
    (acc : MuAcc) (s : Nat) : MuAcc :=
  let x := b.cross s y
  let xlen := b.length x
  if ylen - xlen = 1 then
    let p := getPoly b st x y
    if coeffAt p 0 ≠ 0 then
      ((acc.1.1 ++ [x], acc.1.2 ++ [coeffAt p 0]), acc.2.1, acc.2.2)
    else acc
  else if ylen - xlen = 2 then
    if acc.2.2 x then acc
    else
      let p := getPoly b st x y
      if coeffAt p 0 ≠ 0 then
        (acc.1, (acc.2.1.1 ++ [x], acc.2.1.2 ++ [coeffAt p 0]),
          fun t => if t = x then true else acc.2.2 t)
      else acc
  else acc

/-- `hKLContext::fillMuRow(y)`: the pair of rows `(d_mu[y], d_mu_[y])` after
the call, starting from their current values, with the `mu_bits` seen-bitmap
preventing duplicate `mu_` entries.  The parity test `(ylen-xlen) % 2` and
the surrounding comparisons are stated over `Nat`; on inputs with
`xlen <= ylen` (which holds for every primitive `x` of a row of a valid
block) they agree with the `size_t` originals, and the `size_t` comparisons
`zlen == xlen-1`, `(ylen-xlen) == 1`, `(ylen-xlen) == 2` are rendered by the
equivalent forms `zlen+1 = xlen` and the `Nat` subtractions, which agree
for every pair of operands. -/
def fillMuRowPairs (b : HBlock) (st : HState) (y : Nat) :
    (List Nat × List Int) × (List Nat × List Int) :=
  let prowY := st.prim.getD y []
  let klY := st.kl.getD y []
  let ylen := b.length y
  let psize := prowY.length - 1
  let start : MuAcc := (st.mu.getD y ([], []), st.mu_.getD y ([], []), fun _ => false)
  let main := (List.range psize).foldl (fmrMainStep b st y prowY klY ylen) start
  let extras := (List.range b.rank).foldl (fmrExtrasStep b st y ylen) main
  (extras.1, extras.2.1)

/-- The seen-bitmap invariant threaded through the loops of `fillMuRow`. -/
abbrev MuSeenInv (acc : MuAcc) : Prop :=
  acc.2.1.1.Nodup ∧ ∀ z ∈ acc.2.1.1, acc.2.2 z = true

/-- The same invariant for the `(mu_, bits)` state of the inner loop. -/
abbrev MuSeenInv2 (acc2 : (List Nat × List Int) × (Nat → Bool)) : Prop :=
  acc2.1.1.Nodup ∧ ∀ z ∈ acc2.1.1, acc2.2 z = true

/-- The vector `klvrow` of `hKLContext::fill` for row `j` as it stands just
before `writeRow`: the direct recursion (when a reducing root exists), then
the self term `d_store[d_one]`, then the mu-correction (when a reducing
root exists). -/
def rowKlv (b : HBlock) (st : HState) (j : Nat) : List HPol :=
  let s := findRoot b j
  let prow := makePrimitiveRow b j
  let klv0 : List HPol :=
    if s = b.rank then List.replicate prow.length []
    else klvRecursion b st s (b.cross s j) prow
  let klv1 := klv0.set (klv0.length - 1) (st.store.getD 1 [])
  if s = b.rank then klv1 else muCorrection b st klv1 prow j s

/-- The body of the row loop of `hKLContext::fill` for row `j`: find the
reducing root, build the primitive row, run the direct recursion (if a root
was found), write the self term `d_store[d_one]`, apply the mu-correction
(if a root was found), commit the row and fill its mu-rows. -/
def processRow (b : HBlock) (st : HState) (j : Nat) : HState :=
  let st1 := writeRow st (rowKlv b st j) (makePrimitiveRow b j) j
  let pairs := fillMuRowPairs b st1 j
  { st1 with mu := st1.mu.set j pairs.1, mu_ := st1.mu_.set j pairs.2 }

/-- The state of `hKLContext` after the constructor and the initialisations
at the top of `fill()`: store and map hold the polynomials `0` and `1` at
indices `0` and `1`, the tables are resized to the block size, and the base
case writes `d_prim[0] = [0]`, `d_kl[0] = [d_one]`. -/
def initState (b : HBlock) : HState :=
  { prim := (List.replicate b.size ([] : List Nat)).set 0 [0],
    kl := (List.replicate b.size ([] : List Nat)).set 0 [1],
    store := [[], [1]],
    pmap := [([], 0), ([1], 1)],
    mu := List.replicate b.size ([], []),
    mu_ := List.replicate b.size ([], []) }

/-- The rows visited by the double loop of `hKLContext::fill`:
`for (i=1; i<=maxlen; i++) for (j=ll(i); j<ll(i+1); j++)`. -/
def rowList (b : HBlock) : List Nat :=
  (List.range' 1 (b.length (b.size - 1))).flatMap
    (fun i => List.range' (ll b i) (ll b (i + 1) - ll b i))

/-- `hKLContext::fill()`: the engine state after computing every row. -/
def hfill (b : HBlock) : HState :=
  (rowList b).foldl (processRow b) (initState b)

/-!
## Spec-worded variants of row primitivisation (for refinement comparison)
-/

/-- The starting bitmap as worded by the claim for row primitivisation:
every `x` with `length(x) <= length(y)`, plus `y` itself. -/
def rowBitmapSpecLe (b : HBlock) (y : Nat) : List Nat :=
  (List.range b.size).filter
    (fun x => decide (b.length x ≤ b.length y) || x == y)

/-- Row primitivisation as worded by the claim: start from the `length <=`
bitmap and intersect with `downset[s]` for each descent `s` of `y`. -/
def makePrimitiveRowSpecLe (b : HBlock) (y : Nat) : List Nat :=
  primitivizeMap b (rowBitmapSpecLe b y) (descentTest b y)

/-- The amended starting bitmap: every `x` with `length(x) < length(y)`
(strictly), plus `y` itself. -/
def rowBitmapSpecLt (b : HBlock) (y : Nat) : List Nat :=
  (List.range b.size).filter
    (fun x => decide (b.length x < b.length y) || x == y)

/-- Row primitivisation with the amended (strict) starting bitmap. -/
def makePrimitiveRowSpecLt (b : HBlock) (y : Nat) : List Nat :=
  primitivizeMap b (rowBitmapSpecLt b y) (descentTest b y)

/-!
## Descent statuses (`descents.h`, class `DescentStatus`)
-/

/-- The eight-valued enum `DescentStatus::Value`, in declaration order, so
that `code` below gives the numeric values 0..7. -/
inductive DSValue
  | ComplexAscent
  | RealNonparity
  | ImaginaryTypeI
  | ImaginaryTypeII
  | ImaginaryCompact
  | ComplexDescent
  | RealTypeII
  | RealTypeI
deriving DecidableEq

/-- The numeric value of a `DescentStatus::Value` (0 through 7). -/
def DSValue.code : DSValue → Nat
  | .ComplexAscent => 0
  | .RealNonparity => 1
  | .ImaginaryTypeI => 2
  | .ImaginaryTypeII => 3
  | .ImaginaryCompact => 4
  | .ComplexDescent => 5
  | .RealTypeII => 6
  | .RealTypeI => 7

/-- `DescentStatus::isDescent(v)`: `(v & DescentMask) != 0` with
`DescentMask = 0x4`. -/
def isDescentVal (v : DSValue) : Bool := (v.code &&& 4) != 0

/-- `DescentStatus::isDirectRecursion(v)`:
`(v & DirectRecursionMask) == DirectRecursionMask` with mask `0x5`. -/
def isDirectRecursionVal (v : DSValue) : Bool := (v.code &&& 5) == 5

/-!
## The packed degree/valuation byte (`kl.h`, `KLPool::packed_byte`)
-/

/-- The byte stored by the constructor `packed_byte(d, v)`:
`(d & 0x1F) | (v << 5)`, truncated to the `unsigned char` range. -/
def packedByte (d v : Nat) : Nat := ((d &&& 0x1F) ||| (v <<< 5)) % 256

/-- `packed_byte::degree()`: the lower 5 bits. -/
def packedDegree (byte : Nat) : Nat := byte &&& 0x1F

/-- `packed_byte::valuation()`: the upper 3 bits. -/
def packedValuation (byte : Nat) : Nat := byte >>> 5

/-!
## The klwrite matrix file (`test.cpp`, `klwrite_f`)

Modelled from the spec where the bodies are missing from `src/`:
`KLContext::writeKLRow` (only declared in `kl.h`) serialises one KL row as a
sequence of 32-bit values, so the rows enter the model as abstract byte
lists; `basic_io::put_int` writes one 32-bit value, little-endian (§6: "All
multi-byte integers are little-endian"), and `filekl::magic_code` is a fixed
32-bit constant, kept abstract as a parameter.
-/

/-- Four little-endian bytes of a 32-bit value (`basic_io::put_int`). -/
def putInt (n : Nat) : List Nat :=
  [n % 256, n / 256 % 256, n / 65536 % 256, n / 16777216 % 256]

/-- The row loop of `klwrite_f`: write each row in turn, tracking the
stream offset and recording `delta[y] = (new_offset - offset) / 4`.
Returns (bytes written, final offset, delta table). -/
def klwriteFold (rows : List (List Nat)) : List Nat × Nat × List Nat :=
  rows.foldl
    (fun acc r =>
      let newOffset := acc.2.1 + r.length
      (acc.1 ++ r, newOffset, acc.2.2 ++ [(newOffset - acc.2.1) / 4]))
    ([], 0, [])

/-- `seekp(0); put_int(magic)`: overwrite the bytes at the start of the
file with the given ones. -/
def seekpOverwrite (file : List Nat) (bytes : List Nat) : List Nat :=
  bytes ++ file.drop bytes.length

/-- The matrix file produced by `klwrite_f` in new format: the serialised
rows, then one 32-bit `delta` entry per row, then the first four bytes
overwritten with the magic code. -/
def klwriteMatrixBytes (magic : Nat) (rows : List (List Nat)) : List Nat :=
  let f := klwriteFold rows
  let withTail := f.2.2.foldl (fun acc d => acc ++ putInt d) f.1
  seekpOverwrite withTail (putInt magic)

/-!
## Concrete blocks used as witnesses and counterexamples
-/

/-- A two-element h-block (one generator, lengths 0 and 1, the cross action
swapping the two elements). -/
def bA1 : HBlock :=
  { size := 2, rank := 1,
    length := fun x => [0, 1].getD x 0,
    cross := fun _ x => [1, 0].getD x x }

/-- A four-element h-block with lengths 0,1,1,2 whose generator swaps 0
with 1 and 2 with 3; the top element 3 has a descent of length drop 1 only,
so `findRoot` returns the rank for row 3. -/
def bC3 : HBlock :=
  { size := 4, rank := 1,
    length := fun x => [0, 1, 1, 2].getD x 0,
    cross := fun _ x => [1, 0, 3, 2].getD x x }

/-- A three-element h-block with lengths 0,1,1 whose generator swaps 0 with
1 and fixes 2; the top element 2 has an empty descent set. -/
def bC4 : HBlock :=
  { size := 3, rank := 1,
    length := fun x => [0, 1, 1].getD x 0,
    cross := fun _ x => [1, 0, 2].getD x x }

/-!
## Invariant predicates used by the verification
-/

/-- The store facts that the engine relies on throughout `fill()`: indices
`0` and `1` hold the zero and one polynomials (set up by the `hKLContext`
constructor) and the hash map finds them there. -/
def StoreInv (st : HState) : Prop :=
  st.store[0]? = some [] ∧ st.store[1]? = some [1] ∧
  lookupPoly st.pmap [] = some 0 ∧ lookupPoly st.pmap [1] = some 1

/-- `d_prim` and `d_kl` keep the block size they were resized to. -/
def SLenInv (b : HBlock) (st : HState) : Prop :=
  st.prim.length = b.size ∧ st.kl.length = b.size

/-- Well-formedness of the polynomial store plus hash map (for the
insertion contract): no duplicate store entries, every stored polynomial is
found by the map, and every map entry points at its own polynomial. -/
def StoreWF (st : HState) : Prop :=
  st.store.Nodup ∧
  (∀ p ∈ st.store, (lookupPoly st.pmap p).isSome) ∧
  (∀ pr ∈ st.pmap, st.store[pr.2]? = some pr.1)

/-- The per-row facts established when row `y` has been written: the
primitive row is strictly sorted with last element `y`, the index row is
parallel to it and its last entry points at the polynomial `1`; moreover
for a row of positive length the primitive row is exactly
`makePrimitiveRow`, and when `findRoot` returned the rank the index row is
all zeroes followed by the one-index. -/
def RowGood (b : HBlock) (st : HState) (y : Nat) : Prop :=
  ∃ pr kr,
    st.prim[y]? = some pr ∧ st.kl[y]? = some kr ∧
    pr.Sorted (· < ·) ∧ pr.getLast? = some y ∧ kr.length = pr.length ∧
    (∃ k, kr.getLast? = some k ∧ st.store[k]? = some [1]) ∧
    (1 ≤ b.length y →
      pr = makePrimitiveRow b y ∧
      (findRoot b y = b.rank → kr = List.replicate (pr.length - 1) 0 ++ [1]))

/-- The rows the loop of `fill()` actually visits: inside the block and of
positive length. -/
def Jok (b : HBlock) (j : Nat) : Prop := j < b.size ∧ 1 ≤ b.length j

/-- `v` is the first block element whose length is at least `l`. -/
def IsFirstGE (b : HBlock) (l v : Nat) : Prop :=
  1 ≤ v ∧ v < b.size ∧ l ≤ b.length v ∧ ∀ t, t < v → b.length t < l

/-!
## Lemmas about the polynomial layer
-/

theorem coeffAt_nil (n : Nat) : coeffAt [] n = 0 := rfl

theorem coeffAt_cons_zero (a : Int) (p : HPol) : coeffAt (a :: p) 0 = a := rfl

theorem coeffAt_cons_succ (a : Int) (p : HPol) (n : Nat) :
    coeffAt (a :: p) (n + 1) = coeffAt p n := rfl

theorem coeffAt_eq_zero_of_trim_nil {p : HPol} (h : polyTrim p = []) (n : Nat) :
    coeffAt p n = 0 := by
  induction p generalizing n with
  | nil => rfl
  | cons a t ih =>
    unfold polyTrim at h
    cases ht : polyTrim t with
    | nil =>
      rw [ht] at h
      by_cases ha : a = 0
      · cases n with
        | zero => rw [coeffAt_cons_zero, ha]
        | succ m => rw [coeffAt_cons_succ]; exact ih ht m
      · simp [ha] at h
    | cons r rs => rw [ht] at h; simp at h

theorem coeffAt_trim (p : HPol) (n : Nat) : coeffAt (polyTrim p) n = coeffAt p n := by
  induction p generalizing n with
  | nil => rfl
  | cons a t ih =>
    unfold polyTrim
    cases ht : polyTrim t with
    | nil =>
      have hz : ∀ m, coeffAt t m = 0 := coeffAt_eq_zero_of_trim_nil ht
      by_cases ha : a = 0
      · rw [if_pos ha]
        cases n with
        | zero => rw [coeffAt_nil, coeffAt_cons_zero, ha]
        | succ m => rw [coeffAt_nil, coeffAt_cons_succ, hz m]
      · simp only [if_neg ha]
        cases n with
        | zero => rw [coeffAt_cons_zero, coeffAt_cons_zero]
        | succ m => rw [coeffAt_cons_succ, coeffAt_cons_succ, coeffAt_nil, hz m]
    | cons r rs =>
      cases n with
      | zero => rw [coeffAt_cons_zero, coeffAt_cons_zero]
      | succ m =>
        rw [coeffAt_cons_succ, coeffAt_cons_succ]
        have hm := ih m
        rw [ht] at hm
        exact hm

theorem trim_eq_nil_of_coeff_zero {p : HPol} (h : ∀ n, coeffAt p n = 0) :
    polyTrim p = [] := by
  induction p with
  | nil => rfl
  | cons a t ih =>
    have ha : a = 0 := h 0
    have ht : polyTrim t = [] := ih (fun n => h (n + 1))
    unfold polyTrim
    rw [ht, if_pos ha]

/-- Canonical coefficient lists with equal coefficient functions coincide. -/
theorem trim_eq_of_coeff_eq {p q : HPol} (h : ∀ n, coeffAt p n = coeffAt q n) :
    polyTrim p = polyTrim q := by
  induction p generalizing q with
  | nil =>
    rw [trim_eq_nil_of_coeff_zero (fun n => ((h n).symm.trans (coeffAt_nil n)))]
    rfl
  | cons a t ih =>
    cases q with
    | nil =>
      rw [trim_eq_nil_of_coeff_zero (fun n => (h n).trans (coeffAt_nil n))]
      rfl
    | cons b u =>
      have hab : a = b := h 0
      have htu : polyTrim t = polyTrim u := ih (fun n => h (n + 1))
      unfold polyTrim
      rw [hab, htu]

theorem coeffAt_polyAddAux (p q : HPol) (n : Nat) :
    coeffAt (polyAddAux p q) n = coeffAt p n + coeffAt q n := by
  induction p generalizing q n with
  | nil => simp [polyAddAux, coeffAt_nil]
  | cons a p ih =>
    cases q with
    | nil => simp [polyAddAux, coeffAt_nil]
    | cons b q =>
      cases n with
      | zero => simp [polyAddAux, coeffAt_cons_zero]
      | succ m =>
        have h1 : polyAddAux (a :: p) (b :: q) = (a + b) :: polyAddAux p q := rfl
        rw [h1, coeffAt_cons_succ, coeffAt_cons_succ, coeffAt_cons_succ, ih]

theorem coeffAt_map_neg (q : HPol) (n : Nat) :
    coeffAt (q.map (fun c => -c)) n = -(coeffAt q n) := by
  simp only [coeffAt, List.getD, List.getElem?_map]
  cases h : q[n]? with
  | none => simp [h]
  | some c => simp [h]

theorem coeffAt_polySubAux (p q : HPol) (n : Nat) :
    coeffAt (polySubAux p q) n = coeffAt p n - coeffAt q n := by
  induction p generalizing q n with
  | nil =>
    have h1 : polySubAux [] q = q.map (fun c => -c) := by cases q <;> rfl
    rw [h1, coeffAt_map_neg, coeffAt_nil]
    ring
  | cons a p ih =>
    cases q with
    | nil => simp [polySubAux, coeffAt_nil]
    | cons b q =>
      cases n with
      | zero => simp [polySubAux, coeffAt_cons_zero]
      | succ m =>
        have h1 : polySubAux (a :: p) (b :: q) = (a - b) :: polySubAux p q := rfl
        rw [h1, coeffAt_cons_succ, coeffAt_cons_succ, coeffAt_cons_succ, ih]

theorem coeffAt_map_mul (a : Int) (q : HPol) (n : Nat) :
    coeffAt (q.map (fun c => a * c)) n = a * coeffAt q n := by
  simp only [coeffAt, List.getD, List.getElem?_map]
  cases h : q[n]? with
  | none => simp [h]
  | some c => simp [h]

theorem coeffAt_polyMulAux_cons (a : Int) (p q : HPol) (n : Nat) :
    coeffAt (polyMulAux (a :: p) q) n =
      a * coeffAt q n + (if n = 0 then 0 else coeffAt (polyMulAux p q) (n - 1)) := by
  have h1 : polyMulAux (a :: p) q =
      polyAddAux (q.map (fun c => a * c)) (0 :: polyMulAux p q) := rfl
  rw [h1, coeffAt_polyAddAux, coeffAt_map_mul]
  cases n with
  | zero => rw [coeffAt_cons_zero]; simp
  | succ m => rw [coeffAt_cons_succ]; simp

theorem coeffAt_polyAdd (p q : HPol) (n : Nat) :
    coeffAt (polyAdd p q) n = coeffAt p n + coeffAt q n := by
  unfold polyAdd; rw [coeffAt_trim, coeffAt_polyAddAux]

theorem coeffAt_polySub (p q : HPol) (n : Nat) :
    coeffAt (polySub p q) n = coeffAt p n - coeffAt q n := by
  unfold polySub; rw [coeffAt_trim, coeffAt_polySubAux]

theorem coeffAt_polyMul_q (p : HPol) (n : Nat) :
    coeffAt (polyMul polyQ p) n = if n = 0 then 0 else coeffAt p (n - 1) := by
  unfold polyMul polyQ
  rw [coeffAt_trim, coeffAt_polyMulAux_cons]
  have h1 : polyMulAux ([1] : HPol) p = polyAddAux (p.map (fun c => 1 * c)) (0 :: polyMulAux [] p) := rfl
  cases n with
  | zero => simp
  | succ m =>
    simp only [Nat.succ_ne_zero, if_false, Nat.add_sub_cancel, zero_mul, zero_add]
    rw [h1, coeffAt_polyAddAux, coeffAt_map_mul]
    cases m with
    | zero => simp [polyMulAux, coeffAt_cons_zero]
    | succ k =>
      rw [coeffAt_cons_succ]
      simp [polyMulAux, coeffAt_nil]

theorem polyTrim_idem (p : HPol) : polyTrim (polyTrim p) = polyTrim p :=
  trim_eq_of_coeff_eq (fun n => coeffAt_trim p n)

theorem coeffAt_polyMulAux_nil (p : HPol) (n : Nat) :
    coeffAt (polyMulAux [] p) n = 0 := rfl

/-- The type-I direct-recursion expression of `hKLContext::fill`,
`q*Pszsj + Pszsj + q*q*Pzsj - q*Pzsj`, equals the closed form
`(q+1)*Pszsj + (q^2-q)*Pzsj` claimed by the spec. -/
theorem recursion_typeI_identity (A B : HPol) :
    polySub (polyAdd (polyAdd (polyMul polyQ A) A) (polyMul (polyMul polyQ polyQ) B))
        (polyMul polyQ B)
      = polyAdd (polyMul (polyAdd polyQ polyOne) A)
          (polyMul (polySub (polyMul polyQ polyQ) polyQ) B) := by
  have hq2 : polySub (polyMul polyQ polyQ) polyQ = [0, -1, 1] := by decide
  have hqq : polyMul polyQ polyQ = [0, 0, 1] := by decide
  have hq1 : polyAdd polyQ polyOne = [1, 1] := by decide
  rw [hq2, hqq, hq1]
  unfold polySub polyAdd polyMul polyQ
  apply trim_eq_of_coeff_eq
  intro n
  rcases n with _ | _ | m <;>
    simp [coeffAt_polySubAux, coeffAt_polyAddAux, coeffAt_trim, coeffAt_polyMulAux_cons,
      coeffAt_polyMulAux_nil, coeffAt_nil] <;> ring

/-!
## Claims C8 and C10
-/

/-- Claim C8: the predicate `isDescent(v)` on the eight-valued descent
status holds exactly for the four values `ImaginaryCompact` (4),
`ComplexDescent` (5), `RealTypeII` (6) and `RealTypeI` (7), and
`isDirectRecursion(v)` holds exactly for `ComplexDescent` (5) and
`RealTypeI` (7), via the bit tests `(v & 4) != 0` and `(v & 5) == 5`. -/
theorem claim_C8_descent_predicates (v : DSValue) :
    (isDescentVal v = true ↔
      (v = .ImaginaryCompact ∨ v = .ComplexDescent ∨ v = .RealTypeII ∨ v = .RealTypeI)) ∧
    (isDirectRecursionVal v = true ↔ (v = .ComplexDescent ∨ v = .RealTypeI)) ∧
    DSValue.code .ImaginaryCompact = 4 ∧ DSValue.code .ComplexDescent = 5 ∧
    DSValue.code .RealTypeII = 6 ∧ DSValue.code .RealTypeI = 7 ∧
    isDescentVal v = ((v.code &&& 4) != 0) ∧
    isDirectRecursionVal v = ((v.code &&& 5) == 5) := by
  cases v <;> decide

/-- Claim C10: packing a degree below 32 and a valuation below 8 into one
byte and unpacking recovers both. -/
theorem claim_C10_packed_byte (d v : Nat) (hd : d < 32) (hv : v < 8) :
    packedDegree (packedByte d v) = d ∧ packedValuation (packedByte d v) = v := by
  have h : ∀ d' ∈ List.range 32, ∀ v' ∈ List.range 8,
      packedDegree (packedByte d' v') = d' ∧ packedValuation (packedByte d' v') = v' := by
    decide
  exact h d (List.mem_range.mpr hd) v (List.mem_range.mpr hv)

/-- Witness for claim C10 at the caps' edge, degree 31 and valuation 7. -/
theorem claim_C10_witness :
    (31 < 32 ∧ 7 < 8) ∧
      packedDegree (packedByte 31 7) = 31 ∧ packedValuation (packedByte 31 7) = 7 :=
  ⟨⟨by decide, by decide⟩, claim_C10_packed_byte 31 7 (by decide) (by decide)⟩

/-!
## Claim C9: layout of the klwrite matrix file
-/

theorem klwriteFold_eq (rows : List (List Nat)) :
    klwriteFold rows =
      (rows.flatten, (rows.map List.length).sum, rows.map (fun r => r.length / 4)) := by
  have h : ∀ (rs : List (List Nat)) (acc : List Nat × Nat × List Nat),
      rs.foldl
          (fun acc r =>
            let newOffset := acc.2.1 + r.length
            (acc.1 ++ r, newOffset, acc.2.2 ++ [(newOffset - acc.2.1) / 4]))
          acc =
        (acc.1 ++ rs.flatten, acc.2.1 + (rs.map List.length).sum,
          acc.2.2 ++ rs.map (fun r => r.length / 4)) := by
    intro rs
    induction rs with
    | nil => intro acc; simp
    | cons r t ih =>
      intro acc
      rw [List.foldl_cons, ih]
      simp [Nat.add_assoc]
  unfold klwriteFold
  rw [h]
  simp

theorem foldl_putInt_eq (ds : List Nat) :
    ∀ acc : List Nat,
      ds.foldl (fun acc d => acc ++ putInt d) acc = acc ++ ds.flatMap putInt := by
  induction ds with
  | nil => intro acc; simp
  | cons d t ih => intro acc; rw [List.foldl_cons, ih]; simp

theorem length_flatMap_putInt (ds : List Nat) :
    (ds.flatMap putInt).length = 4 * ds.length := by
  induction ds with
  | nil => simp
  | cons d t ih => simp [putInt, ih]; ring

/-- Claim C9: the new-format matrix file written by klwrite consists of the
serialised KL rows in ascending order of `y`, followed by a tail table of
exactly one 32-bit entry per row, with the first four bytes then
overwritten by the magic code. -/
theorem claim_C9_klwrite_layout (magic : Nat) (rows : List (List Nat)) :
    klwriteMatrixBytes magic rows =
      putInt magic ++
        (rows.flatten ++ (rows.map (fun r => r.length / 4)).flatMap putInt).drop 4 ∧
    ((rows.map (fun r => r.length / 4)).flatMap putInt).length = 4 * rows.length ∧
    (putInt magic).length = 4 := by
  refine ⟨?_, ?_, rfl⟩
  · unfold klwriteMatrixBytes seekpOverwrite
    rw [klwriteFold_eq]
    dsimp only
    rw [foldl_putInt_eq]
    simp [putInt]
  · rw [length_flatMap_putInt, List.length_map]

/-!
## Claim C2: the direct-recursion formulas
-/

/-- Claim C2: in the direct recursion for row `y` with chosen root `s` and
`sy = cross(s,y)`, the provisional polynomial computed for a primitive
`x` (any entry but the last of the primitive row) is
`(q+1)*P(sx,sy) + (q^2-q)*P(x,sy)` when `length(x) - length(sx) = 1`, and
`P(sx,sy) + q^2*P(x,sy)` otherwise. -/
theorem claim_C2_direct_recursion (b : HBlock) (st : HState) (s sxj : Nat)
    (prow : List Nat) (k : Nat) (hk : k < prow.length - 1) :
    (klvRecursion b st s sxj prow).getD k [] =
      (if b.length (prow.getD k 0) - b.length (b.cross s (prow.getD k 0)) = 1 then
        polyAdd
          (polyMul (polyAdd polyQ polyOne)
            (getPoly b st (b.cross s (prow.getD k 0)) sxj))
          (polyMul (polySub (polyMul polyQ polyQ) polyQ)
            (getPoly b st (prow.getD k 0) sxj))
      else
        polyAdd (getPoly b st (b.cross s (prow.getD k 0)) sxj)
          (polyMul (polyMul polyQ polyQ) (getPoly b st (prow.getD k 0) sxj))) := by
  have hk' : k < prow.length := lt_of_lt_of_le hk (Nat.sub_le _ _)
  unfold klvRecursion
  rw [List.getD_eq_getElem?_getD, List.getElem?_map, List.getElem?_range hk']
  simp only [Option.map_some', Option.getD_some]
  rw [if_pos hk]
  unfold recEntry
  dsimp only
  split
  · exact recursion_typeI_identity _ _
  · rfl

/-- Witness for claim C2 on the two-element block, at the first primitive
entry of the row `[0, 1]`. -/
theorem claim_C2_witness :
    (0 < [0, 1].length - 1) ∧
      (klvRecursion bA1 (initState bA1) 0 0 [0, 1]).getD 0 [] =
        (if bA1.length ([0, 1].getD 0 0) - bA1.length (bA1.cross 0 ([0, 1].getD 0 0)) = 1 then
          polyAdd
            (polyMul (polyAdd polyQ polyOne)
              (getPoly bA1 (initState bA1) (bA1.cross 0 ([0, 1].getD 0 0)) 0))
            (polyMul (polySub (polyMul polyQ polyQ) polyQ)
              (getPoly bA1 (initState bA1) ([0, 1].getD 0 0) 0))
        else
          polyAdd (getPoly bA1 (initState bA1) (bA1.cross 0 ([0, 1].getD 0 0)) 0)
            (polyMul (polyMul polyQ polyQ) (getPoly bA1 (initState bA1) ([0, 1].getD 0 0) 0))) :=
  ⟨by decide, claim_C2_direct_recursion bA1 (initState bA1) 0 0 [0, 1] 0 (by decide)⟩

/-!
## Claim C6: the polynomial-store insertion contract
-/

theorem find?_append_of_some {α : Type _} (f : α → Bool) {l₁ : List α} {a : α}
    (h : l₁.find? f = some a) (l₂ : List α) : (l₁ ++ l₂).find? f = some a := by
  induction l₁ with
  | nil => simp at h
  | cons x t ih =>
    rw [List.cons_append]
    cases hx : f x with
    | true =>
      rw [List.find?_cons_of_pos _ hx] at h
      rw [List.find?_cons_of_pos _ hx]
      exact h
    | false =>
      rw [List.find?_cons_of_neg _ (by simp [hx])] at h
      rw [List.find?_cons_of_neg _ (by simp [hx])]
      exact ih h

theorem find?_append_of_none {α : Type _} (f : α → Bool) {l₁ : List α}
    (h : l₁.find? f = none) (l₂ : List α) : (l₁ ++ l₂).find? f = l₂.find? f := by
  induction l₁ with
  | nil => simp
  | cons x t ih =>
    cases hx : f x with
    | true => rw [List.find?_cons_of_pos _ hx] at h; simp at h
    | false =>
      rw [List.find?_cons_of_neg _ (by simp [hx])] at h
      rw [List.cons_append, List.find?_cons_of_neg _ (by simp [hx])]
      exact ih h

theorem lookupPoly_append_of_some {pmap : List (HPol × Nat)} {p : HPol} {i : Nat}
    (h : lookupPoly pmap p = some i) (l : List (HPol × Nat)) :
    lookupPoly (pmap ++ l) p = some i := by
  unfold lookupPoly at h ⊢
  cases hf : pmap.find? (fun e => e.1 == p) with
  | none => rw [hf] at h; simp at h
  | some e =>
    rw [hf] at h
    rw [find?_append_of_some _ hf]
    exact h

theorem lookupPoly_mem {pmap : List (HPol × Nat)} {p : HPol} {i : Nat}
    (h : lookupPoly pmap p = some i) : (p, i) ∈ pmap := by
  unfold lookupPoly at h
  cases hf : pmap.find? (fun e => e.1 == p) with
  | none => rw [hf] at h; simp at h
  | some e =>
    rw [hf] at h
    simp only [Option.map_some', Option.some.injEq] at h
    have hmem := List.mem_of_find?_eq_some hf
    have hpred := List.find?_some hf
    have he1 : e.1 = p := by simpa using hpred
    have he : e = (p, i) := by
      cases e with
      | mk e1 e2 => simp only at he1 h; rw [he1, h]
    rw [← he]
    exact hmem

/-- After any insertion of `p`, the map finds `p` at the returned index. -/
theorem lookupPoly_after_insert (st : HState) (p : HPol) :
    lookupPoly (insertPoly st p).2.pmap p = some (insertPoly st p).1 := by
  unfold insertPoly
  cases h : lookupPoly st.pmap p with
  | some i => simpa using h
  | none =>
    simp only
    unfold lookupPoly at h ⊢
    cases hf : st.pmap.find? (fun e => e.1 == p) with
    | none =>
      rw [find?_append_of_none _ hf]
      simp
    | some e => rw [hf] at h; simp at h

/-- Insertions never disturb an existing map entry. -/
theorem lookupPoly_stable (st : HState) (q : HPol) {p : HPol} {i : Nat}
    (h : lookupPoly st.pmap p = some i) :
    lookupPoly (insertPoly st q).2.pmap p = some i := by
  unfold insertPoly
  cases hq : lookupPoly st.pmap q with
  | some j => simpa using h
  | none => exact lookupPoly_append_of_some h _

/-- Unfolding `insertAll` with a general accumulator. -/
theorem insertAll_acc (t : List HPol) : ∀ (acc : List Nat) (st : HState),
    t.foldl (fun acc p => let r := insertPoly acc.2 p; (acc.1 ++ [r.1], r.2)) (acc, st) =
      (acc ++ (insertAll st t).1, (insertAll st t).2) := by
  induction t with
  | nil => intro acc st; simp [insertAll]
  | cons q v ih =>
    intro acc st
    rw [List.foldl_cons]
    dsimp only
    rw [ih]
    have hR : insertAll st (q :: v) =
        ((insertPoly st q).1 :: (insertAll (insertPoly st q).2 v).1,
          (insertAll (insertPoly st q).2 v).2) := by
      unfold insertAll
      rw [List.foldl_cons]
      dsimp only
      rw [show (([] : List Nat) ++ [(insertPoly st q).1]) = [(insertPoly st q).1] from rfl]
      rw [ih]
      simp only [List.singleton_append]
      rfl
    rw [hR]
    simp

theorem insertAll_cons (st : HState) (q : HPol) (t : List HPol) :
    insertAll st (q :: t) =
      ((insertPoly st q).1 :: (insertAll (insertPoly st q).2 t).1,
        (insertAll (insertPoly st q).2 t).2) := by
  unfold insertAll
  rw [List.foldl_cons]
  dsimp only
  rw [show (([] : List Nat) ++ [(insertPoly st q).1]) = [(insertPoly st q).1] from rfl]
  rw [insertAll_acc]
  simp only [List.singleton_append]
  rfl

theorem lookupPoly_stable_insertAll (qs : List HPol) (st : HState) {p : HPol} {i : Nat}
    (h : lookupPoly st.pmap p = some i) :
    lookupPoly (insertAll st qs).2.pmap p = some i := by
  induction qs generalizing st with
  | nil => simpa [insertAll]
  | cons q t ih =>
    rw [insertAll_cons]
    exact ih _ (lookupPoly_stable st q h)

theorem insertPoly_fst_of_lookup {st : HState} {p : HPol} {i : Nat}
    (h : lookupPoly st.pmap p = some i) : insertPoly st p = (i, st) := by
  unfold insertPoly
  rw [h]

theorem lookupPoly_none_find? {pmap : List (HPol × Nat)} {p : HPol}
    (h : lookupPoly pmap p = none) : pmap.find? (fun e => e.1 == p) = none := by
  unfold lookupPoly at h
  cases hf : pmap.find? (fun e => e.1 == p) with
  | none => rfl
  | some e => rw [hf] at h; simp at h

/-- Claim C6: store insertion is idempotent on value (the same index is
returned for the same polynomial even after further insertions), preserves
the no-duplicates well-formedness of the store, and returns the previous
store size as a fresh index for a polynomial not yet present. -/
theorem claim_C6_insert_contract (st : HState) (p : HPol) (hwf : StoreWF st) :
    (∀ qs : List HPol,
        (insertPoly (insertAll (insertPoly st p).2 qs).2 p).1 = (insertPoly st p).1) ∧
    StoreWF (insertPoly st p).2 ∧
    (p ∉ st.store → (insertPoly st p).1 = st.store.length) := by
  obtain ⟨hnd, hcomplete, hsound⟩ := hwf
  refine ⟨?_, ?_, ?_⟩
  · intro qs
    have h1 := lookupPoly_after_insert st p
    have h2 := lookupPoly_stable_insertAll qs _ h1
    rw [insertPoly_fst_of_lookup h2]
  · unfold insertPoly
    cases h : lookupPoly st.pmap p with
    | some i => exact ⟨hnd, hcomplete, hsound⟩
    | none =>
      dsimp only
      have hf : st.pmap.find? (fun e => e.1 == p) = none := lookupPoly_none_find? h
      have hp_not : p ∉ st.store := by
        intro hmem
        have := hcomplete p hmem
        rw [h] at this
        simp at this
      refine ⟨?_, ?_, ?_⟩
      · rw [← List.concat_eq_append]
        exact hnd.concat hp_not
      · intro q hq
        rcases List.mem_append.mp hq with hq | hq
        · obtain ⟨i, hi⟩ := Option.isSome_iff_exists.mp (hcomplete q hq)
          rw [lookupPoly_append_of_some hi]
          rfl
        · have hqp : q = p := by simpa using hq
          subst hqp
          unfold lookupPoly
          rw [find?_append_of_none _ hf]
          simp
      · intro pr hpr
        rcases List.mem_append.mp hpr with hpr | hpr
        · have hold := hsound pr hpr
          have hlt : pr.2 < st.store.length := by
            rcases List.getElem?_eq_some.mp hold with ⟨hl, _⟩
            exact hl
          rw [List.getElem?_append_left hlt]
          exact hold
        · have hpr' : pr = (p, st.store.length) := by simpa using hpr
          subst hpr'
          simp
  · intro hp_not
    cases h : lookupPoly st.pmap p with
    | some i =>
      exfalso
      have hmem := lookupPoly_mem h
      have hsome := hsound _ hmem
      obtain ⟨hlt, heq⟩ := List.getElem?_eq_some.mp hsome
      apply hp_not
      have : p = st.store[(p, i).2] := heq.symm
      rw [this]
      exact List.getElem_mem hlt
    | none =>
      unfold insertPoly
      rw [h]

/-- Witness for claim C6: the freshly constructed store (polynomials 0 and
1 at indices 0 and 1) is well-formed, and inserting the polynomial `q`
behaves as stated. -/
theorem claim_C6_witness :
    StoreWF (initState bA1) ∧
      (insertPoly (insertAll (insertPoly (initState bA1) [0, 1]).2 []).2 [0, 1]).1 =
          (insertPoly (initState bA1) [0, 1]).1 ∧
      StoreWF (insertPoly (initState bA1) [0, 1]).2 ∧
      ([0, 1] ∉ (initState bA1).store → (insertPoly (initState bA1) [0, 1]).1 =
          (initState bA1).store.length) := by
  have hwf : StoreWF (initState bA1) := by
    refine ⟨by decide, ?_, ?_⟩
    · intro p hp
      fin_cases hp <;> decide
    · intro pr hpr
      fin_cases hpr <;> decide
  have h := claim_C6_insert_contract (initState bA1) [0, 1] hwf
  exact ⟨hwf, h.1 [], h.2.1, h.2.2⟩


/-!
## Claim C7: no duplicates in the `mu_` row
-/

theorem foldl_preserve {α β : Type _} {P : β → Prop} {f : β → α → β}
    (h : ∀ x a, P x → P (f x a)) : ∀ (l : List α) (x : β), P x → P (l.foldl f x) := by
  intro l
  induction l with
  | nil => intro x hx; exact hx
  | cons a t ih => intro x hx; rw [List.foldl_cons]; exact ih _ (h x a hx)

/-- Appending an unseen element and marking it preserves the seen-bitmap
invariant of `fillMuRow`. -/
theorem muPush_preserve {l : List Nat} {bits : Nat → Bool} {z : Nat}
    (hnd : l.Nodup) (hb : ∀ t ∈ l, bits t = true) (hz : ¬(bits z = true)) :
    (l ++ [z]).Nodup ∧
      ∀ t ∈ l ++ [z], (if t = z then true else bits t) = true := by
  have hzmem : z ∉ l := fun hm => hz (hb z hm)
  constructor
  · rw [← List.concat_eq_append]
    exact hnd.concat hzmem
  · intro t ht
    rcases List.mem_append.mp ht with ht | ht
    · by_cases htz : t = z
      · simp [htz]
      · simp [htz, hb t ht]
    · have : t = z := by simpa using ht
      simp [this]

theorem fmrInnerStep_preserve (b : HBlock) (st : HState) (y x d : Nat) :
    ∀ acc2 s, MuSeenInv2 acc2 → MuSeenInv2 (fmrInnerStep b st y x d acc2 s) := by
  intro acc2 s hP
  unfold fmrInnerStep
  dsimp only
  split
  · exact hP
  · split
    · split
      · exact muPush_preserve hP.1 hP.2 (by assumption)
      · exact hP
    · exact hP

theorem fmrMainStep_preserve (b : HBlock) (st : HState) (y : Nat)
    (prowY klY : List Nat) (ylen : Nat) :
    ∀ acc i, MuSeenInv acc → MuSeenInv (fmrMainStep b st y prowY klY ylen acc i) := by
  intro acc i hP
  unfold fmrMainStep
  dsimp only
  split
  · have hinner :
        MuSeenInv2 ((List.range b.rank).foldl
          (fmrInnerStep b st y (prowY.getD i 0) ((ylen - b.length (prowY.getD i 0) - 1) / 2))
          (acc.2.1, acc.2.2)) :=
      foldl_preserve (fmrInnerStep_preserve b st y _ _) _ _ hP
    split
    · exact hinner
    · exact hinner
  · split
    · exact hP
    · split
      · exact muPush_preserve hP.1 hP.2 (by assumption)
      · exact hP

theorem fmrExtrasStep_preserve (b : HBlock) (st : HState) (y ylen : Nat) :
    ∀ acc s, MuSeenInv acc → MuSeenInv (fmrExtrasStep b st y ylen acc s) := by
  intro acc s hP
  unfold fmrExtrasStep
  dsimp only
  split
  · split
    · exact hP
    · exact hP
  · split
    · split
      · exact hP
      · split
        · exact muPush_preserve hP.1 hP.2 (by assumption)
        · exact hP
    · exact hP

/-- Claim C7: for a row `y` whose `mu_` table starts out empty (as it does
for every row processed by `fill()`), every insertion into `mu_[y]` is
guarded by the `mu_bits` seen bitmap, so the element list of the computed
`mu_` row has no duplicates. -/
theorem claim_C7_mu_underscore_nodup (b : HBlock) (st : HState) (y : Nat)
    (h : (st.mu_.getD y ([], [])).1 = []) :
    ((fillMuRowPairs b st y).2).1.Nodup := by
  unfold fillMuRowPairs
  dsimp only
  have hstart : MuSeenInv
      (st.mu.getD y ([], []), st.mu_.getD y ([], []), fun _ => false) := by
    refine ⟨?_, ?_⟩
    · rw [h]; exact List.nodup_nil
    · intro z hz
      rw [h] at hz
      simp at hz
  have hmain := foldl_preserve (fmrMainStep_preserve b st y (st.prim.getD y [])
    (st.kl.getD y []) (b.length y)) (List.range ((st.prim.getD y []).length - 1)) _ hstart
  have hext := foldl_preserve (fmrExtrasStep_preserve b st y (b.length y))
    (List.range b.rank) _ hmain
  exact hext.1

/-- Witness for claim C7 on the four-element block after `fill()`, row 3
(whose `mu_` row in the final state is empty). -/
theorem claim_C7_witness :
    ((hfill bC3).mu_.getD 3 ([], [])).1 = [] ∧
      ((fillMuRowPairs bC3 (hfill bC3) 3).2).1.Nodup :=
  ⟨by decide, claim_C7_mu_underscore_nodup bC3 (hfill bC3) 3 (by decide)⟩

/-!
## Characterisation of the `d_ll` table
-/

theorem getD_set {α : Type _} (l : List α) (i : Nat) (v d : α) (h : i < l.length)
    (j : Nat) : (l.set i v).getD j d = if j = i then v else l.getD j d := by
  simp only [List.getD_eq_getElem?_getD, List.getElem?_set]
  by_cases hij : i = j
  · simp [hij, hij ▸ h]
  · have hji : ¬ j = i := fun hh => hij hh.symm
    simp [hij, hji]

theorem getD_replicate_zero (n l : Nat) : (List.replicate n (0 : Nat)).getD l 0 = 0 := by
  simp only [List.getD_eq_getElem?_getD, List.getElem?_replicate]
  split <;> simp

theorem hv_size_pos {b : HBlock} (hv : HBlockValid b) : 0 < b.size := hv.1

theorem hv_cross_lt {b : HBlock} (hv : HBlockValid b) {s x : Nat}
    (hs : s < b.rank) (hx : x < b.size) : b.cross s x < b.size :=
  hv.2.1 s (List.mem_range.mpr hs) x (List.mem_range.mpr hx)

theorem hv_mono {b : HBlock} (hv : HBlockValid b) {x y : Nat}
    (hxy : x ≤ y) (hy : y < b.size) : b.length x ≤ b.length y :=
  hv.2.2.1 x (List.mem_range.mpr (lt_of_le_of_lt hxy hy)) y (List.mem_range.mpr hy) hxy

theorem hv_len0 {b : HBlock} (hv : HBlockValid b) : b.length 0 = 0 := hv.2.2.2.1

theorem hv_lenpos {b : HBlock} (hv : HBlockValid b) {x : Nat}
    (h0 : 0 < x) (hx : x < b.size) : 0 < b.length x :=
  hv.2.2.2.2 x (List.mem_range.mpr hx) h0

theorem llBump_snd (f : Nat) : ∀ (arr : List Nat) (c x : Nat),
    (llBump f arr c x).2 = c + f := by
  induction f with
  | zero => intro arr c x; rfl
  | succ f ih =>
    intro arr c x
    have h1 : llBump (f + 1) arr c x = llBump f (arr.set (c + 1) x) (c + 1) x := rfl
    rw [h1, ih]
    omega

theorem llBump_length (f : Nat) : ∀ (arr : List Nat) (c x : Nat),
    (llBump f arr c x).1.length = arr.length := by
  induction f with
  | zero => intro arr c x; rfl
  | succ f ih =>
    intro arr c x
    have h1 : llBump (f + 1) arr c x = llBump f (arr.set (c + 1) x) (c + 1) x := rfl
    rw [h1, ih, List.length_set]

theorem llBump_getD (f : Nat) : ∀ (arr : List Nat) (c x : Nat), c + f < arr.length →
    ∀ l, (llBump f arr c x).1.getD l 0 =
      if c < l ∧ l ≤ c + f then x else arr.getD l 0 := by
  induction f with
  | zero =>
    intro arr c x _ l
    have : ¬(c < l ∧ l ≤ c + 0) := by omega
    rw [if_neg this]
    rfl
  | succ f ih =>
    intro arr c x h l
    have h1 : llBump (f + 1) arr c x = llBump f (arr.set (c + 1) x) (c + 1) x := rfl
    have hlen : c + 1 < arr.length := by omega
    have hlen2 : c + 1 + f < (arr.set (c + 1) x).length := by
      rw [List.length_set]; omega
    rw [h1, ih _ _ _ hlen2 l, getD_set arr (c + 1) x 0 hlen l]
    split_ifs <;> first | rfl | omega

/-- The invariant of the `d_ll` filling loop after processing elements
`1 .. k`: the counter equals `length(k)`, filled entries below it are the
first elements of at least their length, entries above are still zero. -/
theorem llLoop_invariant (b : HBlock) (hv : HBlockValid b) :
    ∀ k, k ≤ b.size - 1 →
      ((List.range' 1 k).foldl (llStep b)
          (List.replicate (b.length (b.size - 1) + 2) 0, 0)).2 = b.length k ∧
      ((List.range' 1 k).foldl (llStep b)
          (List.replicate (b.length (b.size - 1) + 2) 0, 0)).1.length =
        b.length (b.size - 1) + 2 ∧
      (∀ l, 1 ≤ l → l ≤ b.length k →
        IsFirstGE b l (((List.range' 1 k).foldl (llStep b)
          (List.replicate (b.length (b.size - 1) + 2) 0, 0)).1.getD l 0)) ∧
      (∀ l, b.length k < l →
        ((List.range' 1 k).foldl (llStep b)
          (List.replicate (b.length (b.size - 1) + 2) 0, 0)).1.getD l 0 = 0) ∧
      ((List.range' 1 k).foldl (llStep b)
          (List.replicate (b.length (b.size - 1) + 2) 0, 0)).1.getD 0 0 = 0 := by
  intro k
  induction k with
  | zero =>
    intro _
    refine ⟨by simp [hv_len0 hv], by simp, ?_, ?_, ?_⟩
    · intro l h1 h2
      rw [hv_len0 hv] at h2
      omega
    · intro l _
      simp only [List.range'_zero, List.foldl_nil]
      exact getD_replicate_zero _ _
    · simp only [List.range'_zero, List.foldl_nil]
      exact getD_replicate_zero _ _
  | succ k ih =>
    intro hk1
    have hk : k ≤ b.size - 1 := Nat.le_of_succ_le hk1
    obtain ⟨h2, hlen, hfirst, hzero, h00⟩ := ih hk
    have hrange : List.range' 1 (k + 1) = List.range' 1 k ++ [1 + 1 * k] :=
      List.range'_concat 1 k
    have hk1' : 1 + 1 * k = k + 1 := by omega
    rw [hk1'] at hrange
    have hksz : k + 1 < b.size := by
      have := hv_size_pos hv
      omega
    have hmono : b.length k ≤ b.length (k + 1) := hv_mono hv (by omega) hksz
    have hmax : b.length (k + 1) ≤ b.length (b.size - 1) :=
      hv_mono hv (by omega) (by have := hv_size_pos hv; omega)
    rw [hrange, List.foldl_append, List.foldl_cons, List.foldl_nil]
    set ST := (List.range' 1 k).foldl (llStep b)
      (List.replicate (b.length (b.size - 1) + 2) 0, 0) with hST
    have hstep : llStep b ST (k + 1) =
        llBump (b.length (k + 1) - ST.2) ST.1 ST.2 (k + 1) := rfl
    rw [hstep, h2]
    have hcf : b.length k + (b.length (k + 1) - b.length k) = b.length (k + 1) := by
      omega
    have hbound : b.length k + (b.length (k + 1) - b.length k) < ST.1.length := by
      rw [hlen, hcf]
      omega
    refine ⟨?_, ?_, ?_, ?_, ?_⟩
    · rw [llBump_snd, hcf]
    · rw [llBump_length, hlen]
    · intro l h1 hl
      rw [llBump_getD _ _ _ _ hbound l]
      by_cases hcase : b.length k < l ∧ l ≤ b.length k + (b.length (k + 1) - b.length k)
      · rw [if_pos hcase]
        refine ⟨by omega, hksz, by omega, ?_⟩
        intro t ht
        have : b.length t ≤ b.length k :=
          hv_mono hv (show t ≤ k by omega) (show k < b.size by omega)
        omega
      · rw [if_neg hcase]
        exact hfirst l h1 (by omega)
    · intro l hl
      rw [llBump_getD _ _ _ _ hbound l]
      have : ¬(b.length k < l ∧ l ≤ b.length k + (b.length (k + 1) - b.length k)) := by
        omega
      rw [if_neg this]
      exact hzero l (by omega)
    · rw [llBump_getD _ _ _ _ hbound 0]
      rw [if_neg (by omega)]
      exact h00

theorem ll_first (b : HBlock) (hv : HBlockValid b) (L : Nat) (h1 : 1 ≤ L)
    (h2 : L ≤ b.length (b.size - 1)) : IsFirstGE b L (ll b L) := by
  obtain ⟨hsnd, hlen, hfirst, _, _⟩ := llLoop_invariant b hv (b.size - 1) (le_refl _)
  unfold ll llList
  dsimp only
  rw [getD_set _ _ _ _ (by rw [hlen, hsnd]; omega) L]
  rw [hsnd]
  rw [if_neg (by omega)]
  exact hfirst L h1 h2

theorem ll_top (b : HBlock) (hv : HBlockValid b) :
    ll b (b.length (b.size - 1) + 1) = b.size := by
  obtain ⟨hsnd, hlen, _, _, _⟩ := llLoop_invariant b hv (b.size - 1) (le_refl _)
  unfold ll llList
  dsimp only
  rw [getD_set _ _ _ _ (by rw [hlen, hsnd]; omega) _]
  rw [hsnd]
  rw [if_pos rfl]

theorem ll_zero (b : HBlock) (hv : HBlockValid b) : ll b 0 = 0 := by
  obtain ⟨hsnd, hlen, _, _, h00⟩ := llLoop_invariant b hv (b.size - 1) (le_refl _)
  unfold ll llList
  dsimp only
  rw [getD_set _ _ _ _ (by rw [hlen, hsnd]; omega) 0]
  rw [hsnd]
  rw [if_neg (by omega)]
  exact h00

theorem ll_le_size (b : HBlock) (hv : HBlockValid b) (L : Nat)
    (h2 : L ≤ b.length (b.size - 1) + 1) : ll b L ≤ b.size := by
  by_cases h0 : L = 0
  · rw [h0, ll_zero b hv]
    omega
  · by_cases hL : L ≤ b.length (b.size - 1)
    · have := (ll_first b hv L (by omega) hL).2.1
      omega
    · have hL' : L = b.length (b.size - 1) + 1 := by omega
      rw [hL', ll_top b hv]

theorem lt_ll_iff (b : HBlock) (hv : HBlockValid b) {L x : Nat} (h1 : 1 ≤ L)
    (h2 : L ≤ b.length (b.size - 1) + 1) (hx : x < b.size) :
    x < ll b L ↔ b.length x < L := by
  by_cases hL : L ≤ b.length (b.size - 1)
  · obtain ⟨hv1, hvlt, hvge, hall⟩ := ll_first b hv L h1 hL
    constructor
    · intro hlt
      exact hall x hlt
    · intro hlen
      by_contra hge
      push_neg at hge
      have := hv_mono hv hge hx
      omega
  · have hL' : L = b.length (b.size - 1) + 1 := by omega
    rw [hL', ll_top b hv]
    constructor
    · intro _
      have hxle : x ≤ b.size - 1 := by omega
      have := hv_mono hv hxle (by have := hv_size_pos hv; omega)
      omega
    · intro _
      exact hx

/-- A block element is never below `ll` of its own length. -/
theorem ll_len_le_self (b : HBlock) (hv : HBlockValid b) {y : Nat} (hy : y < b.size) :
    ll b (b.length y) ≤ y := by
  by_cases h0 : b.length y = 0
  · rw [h0, ll_zero b hv]
    omega
  · have h2 : b.length y ≤ b.length (b.size - 1) + 1 := by
      have := hv_mono hv (show y ≤ b.size - 1 by omega)
        (by have := hv_size_pos hv; omega)
      omega
    by_contra hlt
    push_neg at hlt
    have := (lt_ll_iff b hv (by omega) h2 hy).mp hlt
    omega

/-- Elements strictly below `ll b L` have length strictly below `L`. -/
theorem length_lt_of_lt_ll (b : HBlock) (hv : HBlockValid b) {L x : Nat}
    (h1 : 1 ≤ L) (h2 : L ≤ b.length (b.size - 1) + 1) (hlt : x < ll b L) :
    b.length x < L := by
  have hx : x < b.size := by
    have := ll_le_size b hv L h2
    omega
  exact (lt_ll_iff b hv h1 h2 hx).mp hlt

/-!
## Structure of the primitive row
-/

theorem primitivizeMap_eq_filter (b : HBlock) (ds : Nat → Bool) :
    ∀ (L : List Nat) (m : List Nat),
      L.foldl (fun m s => if ds s then m.filter (fun x => inDownset b s x) else m) m =
        m.filter (fun x => L.all (fun s => !ds s || inDownset b s x)) := by
  intro L
  induction L with
  | nil =>
    intro m
    simp
  | cons s L ih =>
    intro m
    rw [List.foldl_cons]
    by_cases hs : ds s
    · rw [if_pos hs, ih, List.filter_filter]
      apply List.filter_congr
      intro x _
      simp [hs, Bool.and_comm]
    · rw [if_neg hs, ih]
      apply List.filter_congr
      intro x _
      simp [hs]

theorem makePrimitiveRow_unfold (b : HBlock) (y : Nat) :
    makePrimitiveRow b y =
      (rowBitmap b y).filter
        (fun x => (List.range b.rank).all
          (fun s => !descentTest b y s || inDownset b s x)) := by
  unfold makePrimitiveRow primitivizeMap
  exact primitivizeMap_eq_filter b _ _ _

theorem primitiveFilter_self (b : HBlock) (y : Nat) :
    ((List.range b.rank).all
      (fun s => !descentTest b y s || inDownset b s y)) = true := by
  rw [List.all_eq_true]
  intro s _
  unfold descentTest
  cases h : inDownset b s y <;> simp [h]

/-- For a valid block, the primitive row of `y` is the filtered initial
segment `[0, ll(length y))` followed by `y` itself. -/
theorem makePrimitiveRow_eq (b : HBlock) (hv : HBlockValid b) {y : Nat}
    (hy : y < b.size) :
    makePrimitiveRow b y =
      ((List.range (ll b (b.length y))).filter
        (fun x => (List.range b.rank).all
          (fun s => !descentTest b y s || inDownset b s x))) ++ [y] := by
  rw [makePrimitiveRow_unfold]
  unfold rowBitmap
  have hn : ¬(y < ll b (b.length y)) := by
    have := ll_len_le_self b hv hy
    omega
  rw [if_neg hn]
  rw [List.filter_append]
  congr 1
  simp [primitiveFilter_self b y]

theorem makePrimitiveRow_sorted (b : HBlock) (hv : HBlockValid b) {y : Nat}
    (hy : y < b.size) : (makePrimitiveRow b y).Sorted (· < ·) := by
  rw [makePrimitiveRow_eq b hv hy]
  rw [List.Sorted, List.pairwise_append]
  refine ⟨?_, ?_, ?_⟩
  · exact (List.pairwise_lt_range _).sublist (List.filter_sublist _)
  · exact List.pairwise_singleton _ _
  · intro a ha c hc
    have hc' : c = y := by simpa using hc
    have ha' : a < ll b (b.length y) :=
      List.mem_range.mp (List.mem_of_mem_filter ha)
    have := ll_len_le_self b hv hy
    omega

theorem makePrimitiveRow_last (b : HBlock) (hv : HBlockValid b) {y : Nat}
    (hy : y < b.size) : (makePrimitiveRow b y).getLast? = some y := by
  rw [makePrimitiveRow_eq b hv hy]
  exact List.getLast?_concat _

theorem makePrimitiveRow_ne_nil (b : HBlock) (hv : HBlockValid b) {y : Nat}
    (hy : y < b.size) : makePrimitiveRow b y ≠ [] := by
  rw [makePrimitiveRow_eq b hv hy]
  simp

/-!
## `getPoly` at the self pair
-/

theorem primitivize_descent_self (b : HBlock) (y : Nat) :
    primitivize b y (descentTest b y) = y := by
  have hfind : firstAscentIn b (descentTest b y) y = none := by
    unfold firstAscentIn
    rw [List.find?_eq_none]
    intro s _
    unfold descentTest
    cases h : inDownset b s y <;> simp [h]
  unfold primitivize
  cases hs : b.size with
  | zero => rfl
  | succ n =>
    unfold primitivizeAux
    rw [hfind]

theorem findIdx_last_of_sorted :
    ∀ (l : List Nat) (y : Nat), l.Sorted (· < ·) → l.getLast? = some y →
      l.findIdx? (fun t => decide (y ≤ t)) = some (l.length - 1) := by
  intro l
  induction l with
  | nil => intro y _ h; simp at h
  | cons a t ih =>
    intro y hs hl
    cases t with
    | nil =>
      have ha : a = y := by simpa using hl
      subst ha
      simp [List.findIdx?_cons]
    | cons c u =>
      have hl' : (c :: u).getLast? = some y := by
        rw [← hl, List.getLast?_cons_cons]
      have hmem : y ∈ c :: u := by
        have h1 : y ∈ (c :: u).getLast? := by rw [hl']; rfl
        obtain ⟨hne, heq⟩ := List.mem_getLast?_eq_getLast h1
        rw [heq]
        exact List.getLast_mem hne
      have hay : a < y := (List.rel_of_sorted_cons hs) y hmem
      have hnot : ¬(y ≤ a) := by omega
      rw [List.findIdx?_cons]
      rw [if_neg (by simpa using hnot)]
      rw [List.findIdx?_succ]
      rw [ih y hs.of_cons hl']
      simp

/-- When row `y` is well formed, `getPoly(y,y)` finds `y` as the last entry
of its primitive row and returns the stored polynomial `1`. -/
theorem getPoly_self_of_RowGood (b : HBlock) (st : HState) (y : Nat)
    (hg : RowGood b st y) : getPoly b st y y = [1] := by
  obtain ⟨pr, kr, hpr, hkr, hsort, hlast, hlen, ⟨k, hklast, hstk⟩, _⟩ := hg
  have hprD : st.prim.getD y [] = pr := by
    rw [List.getD_eq_getElem?_getD, hpr]
    rfl
  have hkrD : st.kl.getD y [] = kr := by
    rw [List.getD_eq_getElem?_getD, hkr]
    rfl
  unfold getPoly
  dsimp only
  rw [primitivize_descent_self, hprD, hkrD]
  rw [if_neg (lt_irrefl y)]
  rw [findIdx_last_of_sorted pr y hsort hlast]
  have hgetD : pr.getD (pr.length - 1) 0 = y := by
    rw [List.getD_eq_getElem?_getD, ← List.getLast?_eq_getElem?, hlast]
    rfl
  have hkidx : kr.getD (pr.length - 1) 0 = k := by
    rw [← hlen]
    rw [List.getD_eq_getElem?_getD, ← List.getLast?_eq_getElem?, hklast]
    rfl
  dsimp only
  rw [if_pos hgetD, hkidx]
  rw [List.getD_eq_getElem?_getD, hstk]
  rfl

/-!
## Store and row bookkeeping lemmas for the fill loop
-/

theorem insertPoly_store_append (st : HState) (p : HPol) :
    ∃ t, (insertPoly st p).2.store = st.store ++ t := by
  unfold insertPoly
  cases h : lookupPoly st.pmap p with
  | some i => exact ⟨[], by simp⟩
  | none => exact ⟨[p], rfl⟩

theorem insertPoly_StoreInv (st : HState) (p : HPol) (h : StoreInv st) :
    StoreInv (insertPoly st p).2 := by
  obtain ⟨h0, h1, l0, l1⟩ := h
  unfold insertPoly
  cases hl : lookupPoly st.pmap p with
  | some i => exact ⟨h0, h1, l0, l1⟩
  | none =>
    dsimp only
    have hlt0 : 0 < st.store.length := (List.getElem?_eq_some.mp h0).1
    have hlt1 : 1 < st.store.length := (List.getElem?_eq_some.mp h1).1
    refine ⟨?_, ?_, ?_, ?_⟩
    · rw [List.getElem?_append_left hlt0]; exact h0
    · rw [List.getElem?_append_left hlt1]; exact h1
    · exact lookupPoly_append_of_some l0 _
    · exact lookupPoly_append_of_some l1 _

theorem insertAll_StoreInv (klv : List HPol) : ∀ st : HState, StoreInv st →
    StoreInv (insertAll st klv).2 := by
  induction klv with
  | nil => intro st h; exact h
  | cons p t ih =>
    intro st h
    rw [insertAll_cons]
    exact ih _ (insertPoly_StoreInv st p h)

theorem insertAll_store_append (klv : List HPol) : ∀ st : HState,
    ∃ t, (insertAll st klv).2.store = st.store ++ t := by
  induction klv with
  | nil => intro st; exact ⟨[], by simp [insertAll]⟩
  | cons p u ih =>
    intro st
    rw [insertAll_cons]
    obtain ⟨t1, ht1⟩ := insertPoly_store_append st p
    obtain ⟨t2, ht2⟩ := ih (insertPoly st p).2
    exact ⟨t1 ++ t2, by rw [ht2, ht1, List.append_assoc]⟩

theorem insertAll_length (klv : List HPol) : ∀ st : HState,
    (insertAll st klv).1.length = klv.length := by
  induction klv with
  | nil => intro st; rfl
  | cons p t ih =>
    intro st
    rw [insertAll_cons]
    simp [ih]

theorem insertPoly_one (st : HState) (h : StoreInv st) : insertPoly st [1] = (1, st) :=
  insertPoly_fst_of_lookup h.2.2.2

theorem insertPoly_zero (st : HState) (h : StoreInv st) : insertPoly st [] = (0, st) :=
  insertPoly_fst_of_lookup h.2.2.1

theorem insertAll_append (l₁ l₂ : List HPol) (st : HState) :
    insertAll st (l₁ ++ l₂) =
      ((insertAll st l₁).1 ++ (insertAll (insertAll st l₁).2 l₂).1,
        (insertAll (insertAll st l₁).2 l₂).2) := by
  unfold insertAll
  rw [List.foldl_append]
  have h1 : l₁.foldl
      (fun acc p => let r := insertPoly acc.2 p; (acc.1 ++ [r.1], r.2)) ([], st) =
      ((insertAll st l₁).1, (insertAll st l₁).2) := rfl
  rw [h1, insertAll_acc]
  rfl

theorem insertAll_concat_one (klv : List HPol) (st : HState) (h : StoreInv st)
    (hl : klv.getLast? = some [1]) : (insertAll st klv).1.getLast? = some 1 := by
  have hmem : ([1] : HPol) ∈ klv.getLast? := by rw [hl]; rfl
  have hsplit := List.dropLast_append_getLast? _ hmem
  rw [← hsplit, insertAll_append]
  have hinv : StoreInv (insertAll st klv.dropLast).2 := insertAll_StoreInv _ _ h
  have hone : insertAll (insertAll st klv.dropLast).2 [[1]] =
      ([1], (insertAll st klv.dropLast).2) := by
    rw [insertAll_cons, insertPoly_one _ hinv]
    rfl
  rw [hone]
  exact List.getLast?_concat _

theorem insertAll_replicate_zero (m : Nat) : ∀ st : HState, StoreInv st →
    insertAll st (List.replicate m []) = (List.replicate m 0, st) := by
  induction m with
  | zero => intro st _; rfl
  | succ m ih =>
    intro st h
    have hrep : List.replicate (m + 1) ([] : HPol) = [] :: List.replicate m [] :=
      List.replicate_succ _ _
    rw [hrep, insertAll_cons, insertPoly_zero st h]
    dsimp only
    rw [ih st h]
    rfl

theorem setLast_getLast? {α : Type _} (l : List α) (v : α) (h : l ≠ []) :
    (l.set (l.length - 1) v).getLast? = some v := by
  have hpos : 0 < l.length := List.length_pos.mpr h
  rw [List.getLast?_eq_getElem?, List.length_set]
  simp [List.getElem?_set, Nat.sub_lt hpos]

theorem corrInner_length (b : HBlock) (st : HState) (s bound : Nat) (p : HPol)
    (tgt : Nat) (sz : Bool) (prow : List Nat) :
    ∀ (fuel k : Nat) (klv : List HPol),
      (corrInner b st s bound p tgt sz prow fuel k klv).length = klv.length := by
  intro fuel
  induction fuel with
  | zero => intro k klv; rfl
  | succ f ih =>
    intro k klv
    have h1 : corrInner b st s bound p tgt sz prow (f + 1) k klv =
        if bound < b.length (b.cross s (prow.getD k 0)) then klv
        else
          corrInner b st s bound p tgt sz prow f (k + 1)
            (if sz && (getPoly b st (b.cross s (prow.getD k 0)) tgt == ([] : HPol)) then klv
             else klv.set k (polyAdd (klv.getD k [])
               (polyMul p (getPoly b st (b.cross s (prow.getD k 0)) tgt)))) := rfl
    rw [h1]
    split
    · rfl
    · rw [ih]
      split
      · rfl
      · rw [List.length_set]

theorem corrInner_getElem_ge (b : HBlock) (st : HState) (s bound : Nat) (p : HPol)
    (tgt : Nat) (sz : Bool) (prow : List Nat) :
    ∀ (fuel k : Nat) (klv : List HPol) (m : Nat), k + fuel ≤ m →
      (corrInner b st s bound p tgt sz prow fuel k klv)[m]? = klv[m]? := by
  intro fuel
  induction fuel with
  | zero => intro k klv m _; rfl
  | succ f ih =>
    intro k klv m hm
    have h1 : corrInner b st s bound p tgt sz prow (f + 1) k klv =
        if bound < b.length (b.cross s (prow.getD k 0)) then klv
        else
          corrInner b st s bound p tgt sz prow f (k + 1)
            (if sz && (getPoly b st (b.cross s (prow.getD k 0)) tgt == ([] : HPol)) then klv
             else klv.set k (polyAdd (klv.getD k [])
               (polyMul p (getPoly b st (b.cross s (prow.getD k 0)) tgt)))) := rfl
    rw [h1]
    split
    · rfl
    · rw [ih _ _ _ (by omega)]
      split
      · rfl
      · rw [List.getElem?_set]
        rw [if_neg (by omega)]

theorem mcMuStep_pres (b : HBlock) (st : HState) (s wlen : Nat)
    (murow : List Nat × List Int) (prow : List Nat) {L : Nat} {w : Option HPol}
    (hL : prow.length ≤ L) :
    ∀ (klv : List HPol) (i : Nat), klv.length = L ∧ klv[L - 1]? = w →
      (mcMuStep b st s wlen murow prow klv i).length = L ∧
        (mcMuStep b st s wlen murow prow klv i)[L - 1]? = w := by
  intro klv i h
  unfold mcMuStep
  dsimp only
  split
  · rw [corrInner_length, corrInner_getElem_ge _ _ _ _ _ _ _ _ _ _ _ _ (by omega)]
    exact h
  · split
    · rw [corrInner_length, corrInner_getElem_ge _ _ _ _ _ _ _ _ _ _ _ _ (by omega)]
      exact h
    · exact h

theorem mcMu_Step_pres (b : HBlock) (st : HState) (s wlen : Nat)
    (m_row : List Nat × List Int) (prow : List Nat) {L : Nat} {w : Option HPol}
    (hL : prow.length ≤ L) :
    ∀ (klv : List HPol) (i : Nat), klv.length = L ∧ klv[L - 1]? = w →
      (mcMu_Step b st s wlen m_row prow klv i).length = L ∧
        (mcMu_Step b st s wlen m_row prow klv i)[L - 1]? = w := by
  intro klv i h
  unfold mcMu_Step
  dsimp only
  split
  · exact h
  · rw [corrInner_length, corrInner_getElem_ge _ _ _ _ _ _ _ _ _ _ _ _ (by omega)]
    exact h

theorem mcConvInnerStep_pres (b : HBlock) (st : HState) (s wlen : Nat) (muzw : Int)
    (zrow : List Nat × List Int) (prow : List Nat) {L : Nat} {w : Option HPol}
    (hL : prow.length ≤ L) :
    ∀ (klv : List HPol) (j : Nat), klv.length = L ∧ klv[L - 1]? = w →
      (mcConvInnerStep b st s wlen muzw zrow prow klv j).length = L ∧
        (mcConvInnerStep b st s wlen muzw zrow prow klv j)[L - 1]? = w := by
  intro klv j h
  unfold mcConvInnerStep
  dsimp only
  split
  · exact h
  · rw [corrInner_length, corrInner_getElem_ge _ _ _ _ _ _ _ _ _ _ _ _ (by omega)]
    exact h

theorem mcConvStep_pres (b : HBlock) (st : HState) (s wlen : Nat)
    (murow : List Nat × List Int) (prow : List Nat) {L : Nat} {w : Option HPol}
    (hL : prow.length ≤ L) :
    ∀ (klv : List HPol) (i : Nat), klv.length = L ∧ klv[L - 1]? = w →
      (mcConvStep b st s wlen murow prow klv i).length = L ∧
        (mcConvStep b st s wlen murow prow klv i)[L - 1]? = w := by
  intro klv i h
  unfold mcConvStep
  dsimp only
  split
  · exact h
  · exact foldl_preserve (mcConvInnerStep_pres b st s wlen _ _ prow hL) _ _ h

/-- `muCorrection` never changes the length of the provisional row nor its
last entry (the loops stop strictly before the last position). -/
theorem muCorrection_len_last (b : HBlock) (st : HState) (klvrow : List HPol)
    (prow : List Nat) (sws s : Nat) (hlen : prow.length ≤ klvrow.length) :
    (muCorrection b st klvrow prow sws s).length = klvrow.length ∧
      (muCorrection b st klvrow prow sws s).getLast? = klvrow.getLast? := by
  unfold muCorrection
  dsimp only
  have h1 := foldl_preserve (mcMuStep_pres b st s (b.length (b.cross s sws))
      (st.mu.getD (b.cross s sws) ([], [])) prow hlen)
    (List.range (st.mu.getD (b.cross s sws) ([], [])).1.length) klvrow ⟨rfl, rfl⟩
  have h2 := foldl_preserve (mcMu_Step_pres b st s (b.length (b.cross s sws))
      (st.mu_.getD (b.cross s sws) ([], [])) prow hlen)
    (List.range (st.mu_.getD (b.cross s sws) ([], [])).1.length) _ h1
  have h3 := foldl_preserve (mcConvStep_pres b st s (b.length (b.cross s sws))
      (st.mu.getD (b.cross s sws) ([], [])) prow hlen)
    (List.range (st.mu.getD (b.cross s sws) ([], [])).1.length) _ h2
  refine ⟨h3.1, ?_⟩
  rw [List.getLast?_eq_getElem?, List.getLast?_eq_getElem?, h3.1, h3.2]

/-!
## The shape of the committed row
-/

theorem klvRecursion_length (b : HBlock) (st : HState) (s sxj : Nat)
    (prow : List Nat) : (klvRecursion b st s sxj prow).length = prow.length := by
  unfold klvRecursion
  rw [List.length_map, List.length_range]

theorem rowKlv_length (b : HBlock) (st : HState) (j : Nat) :
    (rowKlv b st j).length = (makePrimitiveRow b j).length := by
  unfold rowKlv
  dsimp only
  split
  · rw [List.length_set, List.length_replicate]
  · rw [(muCorrection_len_last b st _ _ j _ (by
        rw [List.length_set, klvRecursion_length])).1]
    rw [List.length_set, klvRecursion_length]

theorem rowKlv_getLast (b : HBlock) (st : HState) (j : Nat) (hs : StoreInv st)
    (hne : makePrimitiveRow b j ≠ []) :
    (rowKlv b st j).getLast? = some [1] := by
  have hone : st.store.getD 1 [] = [1] := by
    rw [List.getD_eq_getElem?_getD, hs.2.1]
    rfl
  have hnz : (makePrimitiveRow b j).length ≠ 0 := by
    intro h
    exact hne (List.length_eq_zero.mp h)
  have hlen0 : ∀ klv0 : List HPol, klv0.length = (makePrimitiveRow b j).length →
      (klv0.set (klv0.length - 1) (st.store.getD 1 [])).getLast? = some [1] := by
    intro klv0 hl
    rw [hone]
    apply setLast_getLast?
    intro h
    rw [h] at hl
    exact hnz hl.symm
  unfold rowKlv
  dsimp only
  split
  · exact hlen0 _ (List.length_replicate _ _)
  · rw [(muCorrection_len_last b st _ _ j _ (by
        rw [List.length_set, klvRecursion_length])).2]
    exact hlen0 _ (klvRecursion_length _ _ _ _ _)

theorem set_replicate_last {α : Type _} (a v : α) :
    ∀ n : Nat, 1 ≤ n →
      (List.replicate n a).set (n - 1) v = List.replicate (n - 1) a ++ [v] := by
  intro n
  induction n with
  | zero => intro h; omega
  | succ n ih =>
    intro _
    cases n with
    | zero => rfl
    | succ m =>
      have h1 : List.replicate (m + 2) a = a :: List.replicate (m + 1) a :=
        List.replicate_succ _ _
      rw [h1]
      have h2 : (m + 2) - 1 = (m + 1 - 1) + 1 := by omega
      rw [h2]
      rw [List.set_cons_succ]
      rw [ih (by omega)]
      rw [List.replicate_succ]
      rfl

/-- When `findRoot` returns the rank, the committed polynomial row is all
zero polynomials followed by the single polynomial `1`. -/
theorem rowKlv_rank (b : HBlock) (st : HState) (j : Nat) (hs : StoreInv st)
    (hne : makePrimitiveRow b j ≠ []) (hr : findRoot b j = b.rank) :
    rowKlv b st j =
      List.replicate ((makePrimitiveRow b j).length - 1) [] ++ [[1]] := by
  have hone : st.store.getD 1 [] = [1] := by
    rw [List.getD_eq_getElem?_getD, hs.2.1]
    rfl
  have hpos : 1 ≤ (makePrimitiveRow b j).length :=
    List.length_pos.mpr hne
  unfold rowKlv
  dsimp only
  rw [if_pos hr, if_pos hr, List.length_replicate, hone]
  exact set_replicate_last _ _ _ hpos

/-!
## Field bookkeeping of `processRow`
-/

theorem insertPoly_prim (st : HState) (p : HPol) : (insertPoly st p).2.prim = st.prim := by
  unfold insertPoly
  cases lookupPoly st.pmap p <;> rfl

theorem insertPoly_kl (st : HState) (p : HPol) : (insertPoly st p).2.kl = st.kl := by
  unfold insertPoly
  cases lookupPoly st.pmap p <;> rfl

theorem insertPoly_mu (st : HState) (p : HPol) : (insertPoly st p).2.mu = st.mu := by
  unfold insertPoly
  cases lookupPoly st.pmap p <;> rfl

theorem insertPoly_mu_ (st : HState) (p : HPol) : (insertPoly st p).2.mu_ = st.mu_ := by
  unfold insertPoly
  cases lookupPoly st.pmap p <;> rfl

theorem insertAll_prim (klv : List HPol) : ∀ st : HState,
    (insertAll st klv).2.prim = st.prim := by
  induction klv with
  | nil => intro st; rfl
  | cons p t ih => intro st; rw [insertAll_cons]; rw [ih, insertPoly_prim]

theorem insertAll_kl (klv : List HPol) : ∀ st : HState,
    (insertAll st klv).2.kl = st.kl := by
  induction klv with
  | nil => intro st; rfl
  | cons p t ih => intro st; rw [insertAll_cons]; rw [ih, insertPoly_kl]

theorem insertAll_mu (klv : List HPol) : ∀ st : HState,
    (insertAll st klv).2.mu = st.mu := by
  induction klv with
  | nil => intro st; rfl
  | cons p t ih => intro st; rw [insertAll_cons]; rw [ih, insertPoly_mu]

theorem insertAll_mu_ (klv : List HPol) : ∀ st : HState,
    (insertAll st klv).2.mu_ = st.mu_ := by
  induction klv with
  | nil => intro st; rfl
  | cons p t ih => intro st; rw [insertAll_cons]; rw [ih, insertPoly_mu_]

theorem processRow_prim (b : HBlock) (st : HState) (j : Nat) :
    (processRow b st j).prim = st.prim.set j (makePrimitiveRow b j) := by
  unfold processRow writeRow
  dsimp only
  rw [insertAll_prim]

theorem processRow_kl (b : HBlock) (st : HState) (j : Nat) :
    (processRow b st j).kl =
      st.kl.set j (insertAll st (rowKlv b st j)).1 := by
  unfold processRow writeRow
  dsimp only
  rw [insertAll_kl]

theorem processRow_store (b : HBlock) (st : HState) (j : Nat) :
    (processRow b st j).store = (insertAll st (rowKlv b st j)).2.store := by
  unfold processRow writeRow
  dsimp only

theorem processRow_store_append (b : HBlock) (st : HState) (j : Nat) :
    ∃ t, (processRow b st j).store = st.store ++ t := by
  rw [processRow_store]
  exact insertAll_store_append _ st

theorem processRow_StoreInv (b : HBlock) (st : HState) (j : Nat)
    (h : StoreInv st) : StoreInv (processRow b st j) := by
  have hpm : (processRow b st j).pmap = (insertAll st (rowKlv b st j)).2.pmap := by
    unfold processRow writeRow
    dsimp only
  have hst := insertAll_StoreInv (rowKlv b st j) st h
  exact ⟨by rw [processRow_store]; exact hst.1, by rw [processRow_store]; exact hst.2.1,
    by rw [hpm]; exact hst.2.2.1, by rw [hpm]; exact hst.2.2.2⟩

theorem processRow_SLen (b : HBlock) (st : HState) (j : Nat)
    (h : SLenInv b st) : SLenInv b (processRow b st j) := by
  refine ⟨?_, ?_⟩
  · rw [processRow_prim, List.length_set]
    exact h.1
  · rw [processRow_kl, List.length_set]
    exact h.2

/-!
## Establishment and stability of well-formed rows
-/

theorem processRow_establishes (b : HBlock) (hv : HBlockValid b) (st : HState)
    (j : Nat) (hJ : Jok b j) (hs : StoreInv st) (hl : SLenInv b st) :
    RowGood b (processRow b st j) j := by
  obtain ⟨hjsz, _⟩ := hJ
  have hj' : j < st.prim.length := by rw [hl.1]; exact hjsz
  have hj'' : j < st.kl.length := by rw [hl.2]; exact hjsz
  have hne := makePrimitiveRow_ne_nil b hv hjsz
  refine ⟨makePrimitiveRow b j, (insertAll st (rowKlv b st j)).1, ?_, ?_,
    makePrimitiveRow_sorted b hv hjsz, makePrimitiveRow_last b hv hjsz, ?_,
    ⟨1, ?_, ?_⟩, ?_⟩
  · rw [processRow_prim, List.getElem?_set]
    simp [hj']
  · rw [processRow_kl, List.getElem?_set]
    simp [hj'']
  · rw [insertAll_length, rowKlv_length]
  · exact insertAll_concat_one _ st hs (rowKlv_getLast b st j hs hne)
  · exact (processRow_StoreInv b st j hs).2.1
  · intro _
    refine ⟨rfl, ?_⟩
    intro hr
    rw [rowKlv_rank b st j hs hne hr, insertAll_append,
      insertAll_replicate_zero _ st hs]
    dsimp only
    rw [insertAll_cons, insertPoly_one st hs]
    rfl

theorem RowGood_stable (b : HBlock) (st : HState) (j y : Nat) (hne : y ≠ j)
    (hg : RowGood b st y) : RowGood b (processRow b st j) y := by
  obtain ⟨pr, kr, hpr, hkr, hsort, hlast, hlen, ⟨k, hklast, hstk⟩, hcond⟩ := hg
  refine ⟨pr, kr, ?_, ?_, hsort, hlast, hlen, ⟨k, hklast, ?_⟩, hcond⟩
  · rw [processRow_prim, List.getElem?_set, if_neg (fun h => hne h.symm)]
    exact hpr
  · rw [processRow_kl, List.getElem?_set, if_neg (fun h => hne h.symm)]
    exact hkr
  · obtain ⟨t, ht⟩ := processRow_store_append b st j
    rw [ht]
    have hlt : k < st.store.length := (List.getElem?_eq_some.mp hstk).1
    rw [List.getElem?_append_left hlt]
    exact hstk

theorem RowGood_step (b : HBlock) (hv : HBlockValid b) (st : HState) (j y : Nat)
    (hJ : Jok b j) (hs : StoreInv st) (hl : SLenInv b st) (hg : RowGood b st y) :
    RowGood b (processRow b st j) y := by
  by_cases h : y = j
  · subst h
    exact processRow_establishes b hv st y hJ hs hl
  · exact RowGood_stable b st j y h hg

/-- The invariants of the row loop of `fill()` over any list of rows it may
visit. -/
theorem fill_fold (b : HBlock) (hv : HBlockValid b) :
    ∀ (l : List Nat), (∀ j ∈ l, Jok b j) → ∀ st : HState, StoreInv st →
      SLenInv b st →
      StoreInv (l.foldl (processRow b) st) ∧
      SLenInv b (l.foldl (processRow b) st) ∧
      (∀ y, RowGood b st y → RowGood b (l.foldl (processRow b) st) y) ∧
      (∀ y ∈ l, RowGood b (l.foldl (processRow b) st) y) := by
  intro l
  induction l with
  | nil =>
    intro _ st h1 h2
    exact ⟨h1, h2, fun y hy => hy, fun y hy => absurd hy (List.not_mem_nil y)⟩
  | cons j t ih =>
    intro hJ st h1 h2
    have hJj := hJ j (List.mem_cons_self j t)
    have hJt : ∀ x ∈ t, Jok b x := fun x hx => hJ x (List.mem_cons_of_mem j hx)
    have h1' := processRow_StoreInv b st j h1
    have h2' := processRow_SLen b st j h2
    obtain ⟨H1, H2, H3, H4⟩ := ih hJt (processRow b st j) h1' h2'
    rw [List.foldl_cons]
    refine ⟨H1, H2, ?_, ?_⟩
    · intro y hy
      exact H3 y (RowGood_step b hv st j y hJj h1 h2 hy)
    · intro y hy
      rcases List.mem_cons.mp hy with hy | hy
      · subst hy
        exact H3 y (processRow_establishes b hv st y hJj h1 h2)
      · exact H4 y hy

theorem initState_StoreInv (b : HBlock) : StoreInv (initState b) :=
  ⟨rfl, rfl, rfl, rfl⟩

theorem initState_SLen (b : HBlock) : SLenInv b (initState b) := by
  constructor <;> simp [initState]

theorem initState_RowGood0 (b : HBlock) (hv : HBlockValid b) :
    RowGood b (initState b) 0 := by
  refine ⟨[0], [1], ?_, ?_, List.sorted_singleton 0, rfl, rfl, ⟨1, rfl, rfl⟩, ?_⟩
  · unfold initState
    dsimp only
    rw [List.getElem?_set]
    simp [hv_size_pos hv]
  · unfold initState
    dsimp only
    rw [List.getElem?_set]
    simp [hv_size_pos hv]
  · intro h
    rw [hv_len0 hv] at h
    omega

/-!
## The rows visited by `fill()`
-/

theorem rowList_Jok (b : HBlock) (hv : HBlockValid b) :
    ∀ j ∈ rowList b, Jok b j := by
  intro j hj
  unfold rowList at hj
  obtain ⟨i, hi, hji⟩ := List.mem_flatMap.mp hj
  obtain ⟨hi1, hi2⟩ := List.mem_range'_1.mp hi
  obtain ⟨hj1, hj2⟩ := List.mem_range'_1.mp hji
  have hmax1 : i ≤ b.length (b.size - 1) + 1 := by omega
  have hmax2 : i + 1 ≤ b.length (b.size - 1) + 1 := by omega
  have hs1 := ll_le_size b hv i hmax1
  have hs2 := ll_le_size b hv (i + 1) hmax2
  have hjsz : j < b.size := by omega
  have h1i : 1 ≤ ll b i := by
    by_cases hL : i ≤ b.length (b.size - 1)
    · exact (ll_first b hv i (by omega) hL).1
    · have : i = b.length (b.size - 1) + 1 := by omega
      rw [this, ll_top b hv]
      exact hv_size_pos hv
  refine ⟨hjsz, ?_⟩
  have : 0 < j := by omega
  exact hv_lenpos hv this hjsz

theorem mem_rowList (b : HBlock) (hv : HBlockValid b) {y : Nat}
    (hy : y < b.size) (hl : 1 ≤ b.length y) : y ∈ rowList b := by
  unfold rowList
  rw [List.mem_flatMap]
  refine ⟨b.length y, ?_, ?_⟩
  · rw [List.mem_range'_1]
    have : b.length y ≤ b.length (b.size - 1) :=
      hv_mono hv (by omega) (by have := hv_size_pos hv; omega)
    omega
  · rw [List.mem_range'_1]
    have hle := ll_len_le_self b hv hy
    have hlt : y < ll b (b.length y + 1) := by
      rw [lt_ll_iff b hv (by omega) (by
        have : b.length y ≤ b.length (b.size - 1) :=
          hv_mono hv (by omega) (by have := hv_size_pos hv; omega)
        omega) hy]
      omega
    omega

/-- Every row of the block is well formed after `fill()`. -/
theorem hfill_RowGood (b : HBlock) (hv : HBlockValid b) {y : Nat}
    (hy : y < b.size) : RowGood b (hfill b) y := by
  have hJ := rowList_Jok b hv
  have hfold := fill_fold b hv (rowList b) hJ (initState b)
    (initState_StoreInv b) (initState_SLen b)
  by_cases h0 : 0 < b.length y
  · exact hfold.2.2.2 y (mem_rowList b hv hy h0)
  · have hy0 : y = 0 := by
      by_contra hne
      exact h0 (hv_lenpos hv (by omega) hy)
    subst hy0
    exact hfold.2.2.1 0 (initState_RowGood0 b hv)

theorem hfill_StoreInv (b : HBlock) (hv : HBlockValid b) : StoreInv (hfill b) := by
  exact (fill_fold b hv (rowList b) (rowList_Jok b hv) (initState b)
    (initState_StoreInv b) (initState_SLen b)).1

/-!
## Claims C1 and C5
-/

/-- Claim C1: after `fill()` of the twisted KL engine on a (topologically
sorted) block, `getPoly(y,y)` returns the polynomial `1` for every block
element `y`. -/
theorem claim_C1_self_poly_one (b : HBlock) (hv : HBlockValid b) (y : Nat)
    (hy : y < b.size) : getPoly b (hfill b) y y = polyOne :=
  getPoly_self_of_RowGood b (hfill b) y (hfill_RowGood b hv hy)

/-- Witness for claim C1 on the two-element block, at its top element. -/
theorem claim_C1_witness :
    (HBlockValid bA1 ∧ 1 < bA1.size) ∧ getPoly bA1 (hfill bA1) 1 1 = polyOne :=
  ⟨⟨by decide, by decide⟩, claim_C1_self_poly_one bA1 (by decide) 1 (by decide)⟩

/-- Claim C5: after `fill()`, every stored primitive row is strictly
increasing and ends with its own row index. -/
theorem claim_C5_prim_row_sorted_last (b : HBlock) (hv : HBlockValid b) (y : Nat)
    (hy : y < b.size) :
    List.Chain' (· < ·) ((hfill b).prim.getD y []) ∧
      ((hfill b).prim.getD y []).getLast? = some y := by
  obtain ⟨pr, kr, hpr, _, hsort, hlast, _, _, _⟩ := hfill_RowGood b hv hy
  have hprD : (hfill b).prim.getD y [] = pr := by
    rw [List.getD_eq_getElem?_getD, hpr]
    rfl
  rw [hprD]
  exact ⟨hsort.chain', hlast⟩

/-- Witness for claim C5 on the two-element block, at its top element. -/
theorem claim_C5_witness :
    (HBlockValid bA1 ∧ 1 < bA1.size) ∧
      List.Chain' (· < ·) ((hfill bA1).prim.getD 1 []) ∧
        ((hfill bA1).prim.getD 1 []).getLast? = some 1 :=
  ⟨⟨by decide, by decide⟩, claim_C5_prim_row_sorted_last bA1 (by decide) 1 (by decide)⟩

/-!
## Claim C3
-/

/-- Counterexample to claim C3 as stated: on the valid four-element block
`bC3`, row 3 has positive length and `findRoot` returns the rank, yet the
stored primitive row is `[1, 3]`, not the single-element list `[3]` (and a
zero polynomial is written for the extra entry). -/
theorem claim_C3_counterexample :
    HBlockValid bC3 ∧ 0 < bC3.length 3 ∧ findRoot bC3 3 = bC3.rank ∧
      (hfill bC3).prim.getD 3 [] = [1, 3] ∧ (hfill bC3).prim.getD 3 [] ≠ [3] := by
  decide

/-- Claim C3 as amended: for a row `y` of positive length whose `findRoot`
returns the rank, after `fill()` the stored primitive row still ends with
`y` itself (though it may contain further elements), and the polynomials
written for the row are the zero polynomial (store index 0) for every entry
except the last, which is the self term `1` (store index 1). -/
theorem claim_C3_amended (b : HBlock) (hv : HBlockValid b) (j : Nat)
    (hj : j < b.size) (hlen : 1 ≤ b.length j) (hr : findRoot b j = b.rank) :
    ((hfill b).prim.getD j []).getLast? = some j ∧
      (hfill b).kl.getD j [] =
        List.replicate (((hfill b).prim.getD j []).length - 1) 0 ++ [1] ∧
      (hfill b).store.getD 0 [] = [] ∧ (hfill b).store.getD 1 [] = polyOne := by
  obtain ⟨pr, kr, hpr, hkr, _, hlast, _, _, hcond⟩ := hfill_RowGood b hv hj
  obtain ⟨hpr_eq, hkr_eq⟩ := hcond hlen
  have hprD : (hfill b).prim.getD j [] = pr := by
    rw [List.getD_eq_getElem?_getD, hpr]
    rfl
  have hkrD : (hfill b).kl.getD j [] = kr := by
    rw [List.getD_eq_getElem?_getD, hkr]
    rfl
  have hstore := hfill_StoreInv b hv
  refine ⟨by rw [hprD]; exact hlast, ?_, ?_, ?_⟩
  · rw [hprD, hkrD]
    exact hkr_eq hr
  · rw [List.getD_eq_getElem?_getD, hstore.1]
    rfl
  · rw [List.getD_eq_getElem?_getD, hstore.2.1]
    rfl

/-- Witness for the amended claim C3 on the two-element block: row 1 has a
semireal descent only, so `findRoot` returns the rank there. -/
theorem claim_C3_witness :
    (HBlockValid bA1 ∧ 1 < bA1.size ∧ 1 ≤ bA1.length 1 ∧
        findRoot bA1 1 = bA1.rank) ∧
      ((hfill bA1).prim.getD 1 []).getLast? = some 1 ∧
        (hfill bA1).kl.getD 1 [] =
          List.replicate (((hfill bA1).prim.getD 1 []).length - 1) 0 ++ [1] ∧
        (hfill bA1).store.getD 0 [] = [] ∧ (hfill bA1).store.getD 1 [] = polyOne :=
  ⟨⟨by decide, by decide, by decide, by decide⟩,
    claim_C3_amended bA1 (by decide) 1 (by decide) (by decide) (by decide)⟩

/-!
## Claim C4
-/

theorem range_split (n m : Nat) (h : n ≤ m) :
    List.range m = List.range n ++ List.range' n (m - n) := by
  have hap := List.range'_append 0 n (m - n) 1
  simp only [Nat.zero_add, Nat.one_mul] at hap
  have hmn : m - n + n = m := by omega
  rw [hmn] at hap
  rw [List.range_eq_range', List.range_eq_range', ← hap]

theorem filter_beq_singleton {l : List Nat} {y : Nat} (hnd : l.Nodup)
    (hy : y ∈ l) : l.filter (fun x => x == y) = [y] := by
  induction l with
  | nil => simp at hy
  | cons a t ih =>
    rw [List.filter_cons]
    rcases List.mem_cons.mp hy with h | h
    · subst h
      rw [if_pos (by simp)]
      have hnot : y ∉ t := (List.nodup_cons.mp hnd).1
      have : t.filter (fun x => x == y) = [] := by
        rw [List.filter_eq_nil_iff]
        intro x hx
        simp only [beq_iff_eq]
        intro hxa
        exact hnot (hxa ▸ hx)
      rw [this]
    · have hat : a ∉ t := (List.nodup_cons.mp hnd).1
      have hay : ¬(a == y) = true := by
        simp only [beq_iff_eq]
        intro hcon
        exact hat (hcon ▸ h)
      rw [if_neg hay]
      exact ih (List.nodup_cons.mp hnd).2 h

/-- Counterexample to claim C4 as stated: on the valid three-element block
`bC4` (lengths 0,1,1), row primitivisation of `y = 2` starts from the
bitmap of elements of length strictly below `length(2)`, so element 1 (of
length equal to `length(2)`) is absent, while the claimed procedure (every
`x` with `length(x) <= length(y)`) would retain it. -/
theorem claim_C4_counterexample :
    HBlockValid bC4 ∧ makePrimitiveRow bC4 2 = [0, 2] ∧
      makePrimitiveRowSpecLe bC4 2 = [0, 1, 2] ∧
      makePrimitiveRow bC4 2 ≠ makePrimitiveRowSpecLe bC4 2 := by
  decide

/-- Claim C4 as amended: row primitivisation computes `prow[y]` by starting
from a bitmap containing every `x` with `length(x) < length(y)` (strictly)
plus `y` itself, and intersecting it with `downset[s]` for each generator
`s` in the descent set of `y`. -/
theorem claim_C4_amended (b : HBlock) (hv : HBlockValid b) (y : Nat)
    (hy : y < b.size) : makePrimitiveRow b y = makePrimitiveRowSpecLt b y := by
  have hbm : rowBitmap b y = rowBitmapSpecLt b y := by
    have hlenmax : b.length y ≤ b.length (b.size - 1) + 1 := by
      have := hv_mono hv (show y ≤ b.size - 1 by omega)
        (by have := hv_size_pos hv; omega)
      omega
    have hn_le : ll b (b.length y) ≤ b.size := ll_le_size b hv (b.length y) hlenmax
    have hny : ¬(y < ll b (b.length y)) := by
      have := ll_len_le_self b hv hy
      omega
    unfold rowBitmap rowBitmapSpecLt
    rw [if_neg hny]
    rw [range_split (ll b (b.length y)) b.size hn_le, List.filter_append]
    have hfirst : (List.range (ll b (b.length y))).filter
        (fun x => decide (b.length x < b.length y) || x == y) =
        List.range (ll b (b.length y)) := by
      rw [List.filter_eq_self]
      intro x hx
      have hxn := List.mem_range.mp hx
      by_cases h0 : 1 ≤ b.length y
      · have := length_lt_of_lt_ll b hv h0 hlenmax hxn
        simp [this]
      · exfalso
        have hz : b.length y = 0 := by omega
        rw [hz, ll_zero b hv] at hxn
        omega
    have hsecond : (List.range' (ll b (b.length y))
          (b.size - ll b (b.length y))).filter
        (fun x => decide (b.length x < b.length y) || x == y) = [y] := by
      have hcongr : (List.range' (ll b (b.length y))
            (b.size - ll b (b.length y))).filter
          (fun x => decide (b.length x < b.length y) || x == y) =
          (List.range' (ll b (b.length y)) (b.size - ll b (b.length y))).filter
            (fun x => x == y) := by
        apply List.filter_congr
        intro x hx
        obtain ⟨hx1, hx2⟩ := List.mem_range'_1.mp hx
        have hlenx : ¬(b.length x < b.length y) := by
          by_cases h0 : 1 ≤ b.length y
          · intro hcon
            have hxsz : x < b.size := by omega
            have := (lt_ll_iff b hv h0 hlenmax hxsz).mpr hcon
            omega
          · omega
        simp [hlenx]
      rw [hcongr]
      have hmem : y ∈ List.range' (ll b (b.length y))
          (b.size - ll b (b.length y)) :=
        List.mem_range'_1.mpr ⟨by omega, by omega⟩
      have hnd : (List.range' (ll b (b.length y))
          (b.size - ll b (b.length y))).Nodup :=
        (List.pairwise_lt_range' _ _).imp (fun h => Nat.ne_of_lt h)
      exact filter_beq_singleton hnd hmem
    rw [hfirst, hsecond]
  unfold makePrimitiveRow makePrimitiveRowSpecLt
  rw [hbm]

/-- Witness for the amended claim C4 on the two-element block, row 1. -/
theorem claim_C4_witness :
    (HBlockValid bA1 ∧ 1 < bA1.size) ∧
      makePrimitiveRow bA1 1 = makePrimitiveRowSpecLt bA1 1 :=
  ⟨⟨by decide, by decide⟩, claim_C4_amended bA1 (by decide) 1 (by decide)⟩
